import Mathlib

/-!
Verification development for the file embedder (`src/embed.ts`).

The program reads input files or directories, base64-encodes each file's
bytes, stores the encoded strings in a nested object keyed by path
segments, and emits a JavaScript module exposing the object together with
two accessors (`get`, `getString`).  This file is a shallow embedding of
that program: JavaScript strings are modeled as `List Char`, byte
sequences as `List Nat` (each element below 256), the nested object as an
association-list tree, and the fallible parts as `Except`.
-/

namespace Embed

/-- JavaScript string, modeled as its list of UTF-16 code units
(all strings manipulated by the program stay within the BMP, so one
`Char` per code unit is faithful). -/
abbrev JSStr := List Char

/-! ## Path handling (models `jsr:@std/path`, posix flavor) -/

/-- Models posix `isAbsolute` from `@std/path`: a path is absolute when
its first character is the separator.  On the empty string
`charCodeAt(0)` is NaN, hence not a separator. -/
def isAbsolute (p : JSStr) : Bool :=
  match p with
  | [] => false
  | c :: _ => c = '/'

/-- Models JavaScript `String.prototype.split` with a one-character
separator: the list of (possibly empty) chunks between separator
occurrences. -/
def jsSplit (sep : Char) : JSStr → List JSStr
  | [] => [[]]
  | c :: rest =>
    if c = sep then [] :: jsSplit sep rest
    else
      match jsSplit sep rest with
      | [] => [[c]]
      | s :: ss => (c :: s) :: ss

/-- Split a path on the separator and drop empty chunks, as both
`normalize` (internally) and `setNestedValue` do. -/
def splitSegs (p : JSStr) : List JSStr :=
  (jsSplit '/' p).filter (fun s => s ≠ [])

/-- Join segments with the separator (inverse of splitting; used to state
the string-level behavior of `normalize`). -/
def joinSegs : List JSStr → JSStr
  | [] => []
  | [s] => s
  | s :: rest => s ++ '/' :: joinSegs rest

/-- Models the segment resolution loop of `normalizeString` from
`@std/path`: skip empty and `.` segments; on `..` pop the previous
segment, or keep a leading `..` when the path is relative
(`allowAboveRoot`), or drop it at the root of an absolute path. -/
def resolveDots (allowAboveRoot : Bool) (stack : List JSStr) : List JSStr → List JSStr
  | [] => stack
  | s :: rest =>
    if s = [] then resolveDots allowAboveRoot stack rest
    else if s = ['.'] then resolveDots allowAboveRoot stack rest
    else if s = ['.', '.'] then
      match stack.getLast? with
      | some t =>
        if t = ['.', '.'] then
          resolveDots allowAboveRoot (if allowAboveRoot then stack ++ [['.', '.']] else stack) rest
        else resolveDots allowAboveRoot stack.dropLast rest
      | none =>
        resolveDots allowAboveRoot (if allowAboveRoot then [['.', '.']] else []) rest
    else resolveDots allowAboveRoot (stack ++ [s]) rest

/-- Models posix `normalize` from `@std/path` on nonempty input
(the library raises on the empty string, which the program never passes):
resolve `.`/`..`, collapse duplicate separators, keep a trailing
separator, restore the leading separator of an absolute path, and render
an empty relative result as `.`. -/
def normalize (p : JSStr) : JSStr :=
  let abs := isAbsolute p
  let trailing := p.getLast? = some '/'
  let res := joinSegs (resolveDots (!abs) [] (splitSegs p))
  let res := if res = [] ∧ abs = false then ['.'] else res
  let res := if res ≠ [] ∧ trailing then res ++ ['/'] else res
  if abs then '/' :: res else res

/-- Models `normalizePath` of `embed.ts`: normalize, then remove the
leading slash when the path is absolute (`substring(1)`). -/
def normalizePath (p : JSStr) : JSStr :=
  let n := normalize p
  if isAbsolute n then n.drop 1 else n

/-- The path segments `setNestedValue` actually walks:
`normalizePath(path).split("/").filter(part => part !== "")`. -/
def partsOf (p : JSStr) : List JSStr :=
  (jsSplit '/' (normalizePath p)).filter (fun s => s ≠ [])

/-- Direct segment-level computation of canonical path segments: split,
then resolve dot segments (keeping `..` only for relative paths).  Used
as the specification-side description of PathSegments. -/
def canonSegs (p : JSStr) : List JSStr :=
  resolveDots (!(isAbsolute p)) [] (splitSegs p)

/-- Models posix `join` from `@std/path` on two components: empty
components are skipped, the rest are joined with a separator and the
result is normalized (an all-empty join yields `.`). -/
def joinPaths (a b : JSStr) : JSStr :=
  if a = [] ∧ b = [] then ['.']
  else if a = [] then normalize b
  else if b = [] then normalize a
  else normalize (a ++ '/' :: b)

/-! ## The nested file map -/

/-- The `NestedFileMap` of `embed.ts`: a JavaScript object whose values
are either base64 strings (leaves) or nested objects.  Entries are kept
as an association list in property insertion order, matching JavaScript
object key order for string keys. -/
inductive NFM where
  | leaf (v : JSStr)
  | node (entries : List (JSStr × NFM))

/-- Own-property lookup on a JavaScript object.  (The real `in` operator
also sees properties inherited from `Object.prototype`; theorems below
therefore restrict path segments to names outside `protoKeys`.) -/
def findAL : List (JSStr × NFM) → JSStr → Option NFM
  | [], _ => none
  | (k, v) :: rest, key => if k = key then some v else findAL rest key

/-- Property assignment on a JavaScript object: an existing key keeps its
position and gets the new value, a new key is appended. -/
def insertAL : List (JSStr × NFM) → JSStr → NFM → List (JSStr × NFM)
  | [], k, v => [(k, v)]
  | (k', v') :: rest, k, v =>
    if k' = k then (k, v) :: rest else (k', v') :: insertAL rest k v

/-- Follow a key path down the tree. -/
def lookupPath : NFM → List JSStr → Option NFM
  | t, [] => some t
  | .leaf _, _ :: _ => none
  | .node es, p :: rest =>
    match findAL es p with
    | none => none
    | some c => lookupPath c rest

/-- Error outcomes of the embedding run, one constructor per throw site:
`ioError` for a failing `Deno.stat`/`readFile`/`readDir`, `typeError`
for the TypeError raised (in strict mode) when `setNestedValue` walks
into or assigns onto a string value, `unsupportedLanguage` for the
`switch` default in `embedFiles`, and `todo` for the
`throw new Error("TODO")` in `generatePython`. -/
inductive EmbedError where
  | ioError (path : JSStr)
  | typeError
  | unsupportedLanguage (language : String)
  | todo
deriving DecidableEq, Repr

/-- The reserved root key. -/
def rootKey : JSStr := ['/']

/-- The property name used when the segment list is empty:
`parts[parts.length - 1]` is `undefined`, which property assignment
coerces to the string key "undefined". -/
def undefKey : JSStr := "undefined".toList

/-- The names of the own properties of `Object.prototype`.  The `in`
operator of the source sees these as inherited properties of every plain
object; the model uses own-property lookup only, so cleanliness
hypotheses exclude these names as path segments. -/
def protoKeys : List JSStr :=
  ["constructor".toList, "hasOwnProperty".toList, "isPrototypeOf".toList,
   "propertyIsEnumerable".toList, "toLocaleString".toList, "toString".toList,
   "valueOf".toList, "__proto__".toList, "__defineGetter__".toList,
   "__defineSetter__".toList, "__lookupGetter__".toList, "__lookupSetter__".toList]

/-- The descent-and-assign loop of `setNestedValue`, on an explicit
segment list.  Walking into a missing segment creates an empty object;
walking into or finally assigning onto a string value raises a TypeError
(strict mode); the final segment is assigned, overwriting any existing
entry; an empty segment list assigns to the key "undefined". -/
def setNestedParts : NFM → List JSStr → JSStr → Except EmbedError NFM
  | .leaf _, _, _ => .error .typeError
  | .node es, [], v => .ok (.node (insertAL es undefKey (.leaf v)))
  | .node es, [p], v => .ok (.node (insertAL es p (.leaf v)))
  | .node es, p :: q :: rest, v =>
    match findAL es p with
    | none =>
      match setNestedParts (.node []) (q :: rest) v with
      | .error e => .error e
      | .ok child => .ok (.node (insertAL es p child))
    | some c =>
      match setNestedParts c (q :: rest) v with
      | .error e => .error e
      | .ok child => .ok (.node (insertAL es p child))

/-- Models `setNestedValue` of `embed.ts`: compute the filtered segments
of the normalized path, start from `obj["/"]` when the original path is
absolute (a TypeError results if that property were missing or a
string) and from the object itself otherwise, then run the
descent-and-assign loop. -/
def setNestedValue (m : NFM) (path : JSStr) (v : JSStr) : Except EmbedError NFM :=
  let ps := partsOf path
  if isAbsolute path then
    match m with
    | .leaf _ => .error .typeError
    | .node es =>
      match findAL es rootKey with
      | none => .error .typeError
      | some c =>
        match setNestedParts c ps v with
        | .error e => .error e
        | .ok child => .ok (.node (insertAL es rootKey child))
  else setNestedParts m ps v

/-! ## Base64 (Buffer.toString("base64") and atob) -/

/-- The base64 alphabet: sextet to character. -/
def b64EncChar (s : Nat) : Char :=
  if s < 26 then Char.ofNat (65 + s)
  else if s < 52 then Char.ofNat (97 + (s - 26))
  else if s < 62 then Char.ofNat (48 + (s - 52))
  else if s = 62 then '+'
  else '/'

/-- The base64 alphabet: character to sextet. -/
def b64DecChar (c : Char) : Nat :=
  let n := c.toNat
  if 65 ≤ n ∧ n ≤ 90 then n - 65
  else if 97 ≤ n ∧ n ≤ 122 then (n - 97) + 26
  else if 48 ≤ n ∧ n ≤ 57 then (n - 48) + 52
  else if n = 43 then 62
  else if n = 47 then 63
  else 0

/-- Models `Buffer.from(bytes).toString("base64")`: standard padded
base64 of a byte sequence. -/
def b64Encode : List Nat → JSStr
  | [] => []
  | [b1] => [b64EncChar (b1 / 4), b64EncChar (b1 % 4 * 16), '=', '=']
  | [b1, b2] =>
    [b64EncChar (b1 / 4), b64EncChar (b1 % 4 * 16 + b2 / 16),
     b64EncChar (b2 % 16 * 4), '=']
  | b1 :: b2 :: b3 :: rest =>
    b64EncChar (b1 / 4) :: b64EncChar (b1 % 4 * 16 + b2 / 16) ::
    b64EncChar (b2 % 16 * 4 + b3 / 64) :: b64EncChar (b3 % 64) :: b64Encode rest

/-- Base64 decoding to bytes, on well-formed padded input (which is the
shape `b64Encode` produces; `atob` accepts exactly such strings). -/
def b64DecodeBytes : JSStr → List Nat
  | c1 :: c2 :: c3 :: c4 :: rest =>
    if c3 = '=' then [b64DecChar c1 * 4 + b64DecChar c2 / 16]
    else if c4 = '=' then
      [b64DecChar c1 * 4 + b64DecChar c2 / 16,
       b64DecChar c2 % 16 * 16 + b64DecChar c3 / 4]
    else
      (b64DecChar c1 * 4 + b64DecChar c2 / 16) ::
      (b64DecChar c2 % 16 * 16 + b64DecChar c3 / 4) ::
      (b64DecChar c3 % 4 * 64 + b64DecChar c4) :: b64DecodeBytes rest
  | _ => []

/-- Models the JavaScript `atob` on well-formed input: decode base64 and
return the string whose character codes are the decoded bytes
(a byte-wise Latin-1 string, not a UTF-8 decoding). -/
def atob (s : JSStr) : JSStr :=
  (b64DecodeBytes s).map Char.ofNat

/-- Models the generated accessor `get` (via `Base64ToUint8Array`):
`atob` the leaf, then take `charCodeAt` of every character. -/
def jsGet (s : JSStr) : List Nat :=
  (atob s).map Char.toNat

/-- Models the generated accessor `getString`: exactly `atob`. -/
def jsGetString (s : JSStr) : JSStr :=
  atob s

/-! ## UTF-8 encoding (how a text file's characters appear as bytes) -/

/-- Standard UTF-8 encoding of one code point. -/
def utf8EncodeChar (c : Nat) : List Nat :=
  if c < 128 then [c]
  else if c < 2048 then [192 + c / 64, 128 + c % 64]
  else if c < 65536 then [224 + c / 4096, 128 + c / 64 % 64, 128 + c % 64]
  else [240 + c / 262144, 128 + c / 4096 % 64, 128 + c / 64 % 64, 128 + c % 64]

/-- UTF-8 byte sequence of a text. -/
def utf8EncodeStr (s : JSStr) : List Nat :=
  (s.map (fun c => utf8EncodeChar c.toNat)).flatten

/-! ## The filesystem visible to the program -/

/-- A filesystem object: a regular file with its raw bytes, or a
directory with its named entries in `Deno.readDir` iteration order. -/
inductive FSNode where
  | file (content : List Nat)
  | dir (entries : List (JSStr × FSNode))

/-- Directory entries: a named listing. -/
abbrev FSEntries := List (JSStr × FSNode)

/-- Entry lookup by name. -/
def findEntry : FSEntries → JSStr → Option FSNode
  | [], _ => none
  | (n, node) :: rest, name => if n = name then some node else findEntry rest name

/-- Resolve a segment sequence from a node. -/
def resolveNode : FSNode → List JSStr → Option FSNode
  | n, [] => some n
  | .file _, _ :: _ => none
  | .dir es, s :: rest =>
    match findEntry es s with
    | none => none
    | some c => resolveNode c rest

/-- The filesystem the program runs against: the listing of the
filesystem root (for absolute paths) and of the current working
directory (for relative paths). -/
structure FS where
  root : FSEntries
  cwd : FSEntries

/-- Models path resolution by `Deno.stat`/`readFile`/`readDir`: resolve
the dot-resolved segments of the path from the root listing when the
path is absolute, from the working directory otherwise (`..` above the
starting directory is not modeled and is excluded by cleanliness
hypotheses). -/
def statFS (fs : FS) (p : JSStr) : Option FSNode :=
  if isAbsolute p then resolveNode (.dir fs.root) (resolveDots false [] (splitSegs p))
  else resolveNode (.dir fs.cwd) (resolveDots false [] (splitSegs p))

mutual
/-- Handling of one directory entry inside `processDirectory`: recurse
into subdirectories, otherwise read the file, base64-encode it and store
it under its joined path. -/
def processDirNode (path : JSStr) (n : FSNode) (m : NFM) : Except EmbedError NFM :=
  match n with
  | .file c => setNestedValue m path (b64Encode c)
  | .dir es => processDirEntries path es m

/-- Models the `for await` loop of `processDirectory` over the entries of
`dirPath`, threading the accumulated map. -/
def processDirEntries (dirPath : JSStr) (es : FSEntries) (m : NFM) : Except EmbedError NFM :=
  match es with
  | [] => .ok m
  | (name, node) :: rest =>
    match processDirNode (joinPaths dirPath name) node m with
    | .error e => .error e
    | .ok m' => processDirEntries dirPath rest m'
end

/-- The map `embedFiles` starts from: `{ "/": {} }`. -/
def initialMap : NFM := .node [(rootKey, .node [])]

/-- The input-reading loop of `embedFiles`: stat each input, recurse into
directories, read-encode-store files; any raised error aborts the run. -/
def buildFileMap (fs : FS) : List JSStr → NFM → Except EmbedError NFM
  | [], m => .ok m
  | p :: rest, m =>
    match statFS fs p with
    | none => .error (.ioError p)
    | some (.file c) =>
      match setNestedValue m p (b64Encode c) with
      | .error e => .error e
      | .ok m' => buildFileMap fs rest m'
    | some (.dir es) =>
      match processDirEntries p es m with
      | .error e => .error e
      | .ok m' => buildFileMap fs rest m'

/-- Models `generateJS` by its semantic payload: the emitted module
serializes the map literally (`JSON.stringify`) and wraps it with the
fixed accessor boilerplate modeled by `jsGet` and `jsGetString`; the
payload that varies is the map itself. -/
def generateJS (m : NFM) : NFM := m

/-- Models `generatePython`, which unconditionally throws
`new Error("TODO")`. -/
def generatePython (_m : NFM) : Except EmbedError NFM := .error .todo

/-- Models `embedFiles`: build the map from the inputs, then switch on
the language; a successful run returns the written file
(`embedded_files.<language>`) together with the embedded map, an error
means nothing was written.  The `console.warn` on the `py` branch is
advisory only and not modeled. -/
def embedFiles (fs : FS) (inputPaths : List JSStr) (language : String) :
    Except EmbedError (String × NFM) :=
  match buildFileMap fs inputPaths initialMap with
  | .error e => .error e
  | .ok m =>
    if language = "js" then .ok ("embedded_files." ++ language, generateJS m)
    else if language = "py" then
      match generatePython m with
      | .error e => .error e
      | .ok c => .ok ("embedded_files." ++ language, c)
    else .error (.unsupportedLanguage language)

/-- The languages the CLI argument validator accepts
(`["js", "ts", "py"].includes(language)` in the `import.meta.main`
block). -/
def cliSupportedLanguages : List String := ["js", "ts", "py"]

/-! ## Auxiliary predicates used to state the theorems -/

/-- A path segment is clean when it is nonempty, contains no separator,
is not a dot segment, and is not the name of an `Object.prototype`
property (see `protoKeys`). -/
def cleanSeg (s : JSStr) : Bool :=
  decide (s ≠ []) && decide ('/' ∉ s) && decide (s ≠ ['.']) &&
    decide (s ≠ ['.', '.']) && decide (s ∉ protoKeys)

/-- All segments of a list are clean. -/
def cleanSegs (l : List JSStr) : Bool := l.all cleanSeg

/-- Decidable prefix test on segment lists. -/
def isPre : List JSStr → List JSStr → Bool
  | [], _ => true
  | _ :: _, [] => false
  | a :: as, b :: bs => a = b && isPre as bs

/-- Two segment sequences are incomparable when neither is a prefix of
the other. -/
def incomp (p q : List JSStr) : Prop := isPre p q = false ∧ isPre q p = false

/-- Success condition of the descent-and-assign loop: no proper leading
part of the segment list hits a string value. -/
def insertOk : NFM → List JSStr → Bool
  | .leaf _, _ => false
  | .node _, [] => true
  | .node _, [_] => true
  | .node es, p :: q :: rest =>
    match findAL es p with
    | none => true
    | some c => insertOk c (q :: rest)

/-- The invariant of the top-level map: the reserved key `"/"` is
present and bound to a sub-mapping. -/
def rootOk : NFM → Bool
  | .leaf _ => false
  | .node es =>
    match findAL es rootKey with
    | some (.node _) => true
    | _ => false

mutual
/-- Size of a filesystem node, for induction. -/
def sizeN : FSNode → Nat
  | .file _ => 1
  | .dir es => 1 + sizeE es

/-- Size of a directory listing, for induction. -/
def sizeE : FSEntries → Nat
  | [] => 0
  | (_, n) :: rest => 1 + sizeN n + sizeE rest
end

/-- Membership of a name in a directory listing. -/
def memNames (name : JSStr) : FSEntries → Bool
  | [] => false
  | (n, _) :: rest => n = name || memNames name rest

mutual
/-- A filesystem node is clean when every name in it is a clean segment
and sibling names are distinct. -/
def cleanNode : FSNode → Bool
  | .file _ => true
  | .dir es => cleanEntries es

/-- Cleanliness of a directory listing. -/
def cleanEntries : FSEntries → Bool
  | [] => true
  | (name, n) :: rest =>
    cleanSeg name && cleanNode n && !(memNames name rest) && cleanEntries rest
end

mutual
/-- All regular files reachable from a node, as pairs of the relative
segment path and the raw bytes. -/
def filesOfNode : FSNode → List (List JSStr × List Nat)
  | .file c => [([], c)]
  | .dir es => filesOfEntries es

/-- All regular files reachable from a directory listing. -/
def filesOfEntries : FSEntries → List (List JSStr × List Nat)
  | [] => []
  | (name, n) :: rest =>
    (filesOfNode n).map (fun pc => (name :: pc.1, pc.2)) ++ filesOfEntries rest
end

/-! ## Concrete filesystems used by witnesses and counterexamples -/

/-- A working directory holding the single file `a` with content `"h"`. -/
def fsHello : FS := ⟨[], [(['a'], .file [104])]⟩

/-- A working directory holding `assets/sub/file1` with content `"hi"`. -/
def fsAssets : FS :=
  ⟨[], [("assets".toList,
    .dir [("sub".toList, .dir [("file1".toList, .file [104, 105])])])]⟩

/-- A filesystem whose root holds `/a/b/c` with content bytes `[1, 2]`,
and whose working directory holds a file `d` with content `[3]`. -/
def fsAbs : FS :=
  ⟨[(['a'], .dir [(['b'], .dir [(['c'], .file [1, 2])])])], [(['d'], .file [3])]⟩

/-- A working directory holding `f.txt` whose content is the UTF-8
encoding of the one-character text `"é"` (bytes `[195, 169]`). -/
def fsAccent : FS := ⟨[], [("f.txt".toList, .file [195, 169])]⟩

/-! ## Lemmas about splitting -/

theorem jsSplit_ne_nil (sep : Char) (l : JSStr) : jsSplit sep l ≠ [] := by
  induction l with
  | nil => simp [jsSplit]
  | cons c rest ih =>
    simp only [jsSplit]
    split
    · simp
    · split <;> simp

theorem not_sep_of_mem_jsSplit {sep : Char} {l s : JSStr}
    (h : s ∈ jsSplit sep l) : sep ∉ s := by
  induction l generalizing s with
  | nil =>
    simp only [jsSplit, List.mem_singleton] at h
    simp [h]
  | cons c rest ih =>
    simp only [jsSplit] at h
    by_cases hc : c = sep
    · rw [if_pos hc] at h
      rcases List.mem_cons.mp h with h | h
      · simp [h]
      · exact ih h
    · rw [if_neg hc] at h
      rcases hs : jsSplit sep rest with _ | ⟨t, ts⟩
      · exact absurd hs (jsSplit_ne_nil sep rest)
      · rw [hs] at h
        rcases List.mem_cons.mp h with h | h
        · subst h
          intro hm
          rcases List.mem_cons.mp hm with hm | hm
          · exact hc hm.symm
          · exact ih (hs ▸ List.mem_cons_self t ts) hm
        · exact ih (hs ▸ List.mem_cons_of_mem t h)

theorem jsSplit_append (sep : Char) (a b : JSStr) :
    jsSplit sep (a ++ sep :: b) = jsSplit sep a ++ jsSplit sep b := by
  induction a with
  | nil => simp [jsSplit]
  | cons c rest ih =>
    by_cases hc : c = sep
    · simp [jsSplit, hc, ih]
    · simp only [List.cons_append, jsSplit, if_neg hc]
      cases h : jsSplit sep rest with
      | nil => exact absurd h (jsSplit_ne_nil sep rest)
      | cons s ss =>
        simp only [List.append_eq]
        rw [ih, h]
        simp

theorem jsSplit_of_not_mem {sep : Char} {s : JSStr} (h : sep ∉ s) :
    jsSplit sep s = [s] := by
  induction s with
  | nil => simp [jsSplit]
  | cons c rest ih =>
    have h1 : ¬ c = sep := fun hc => h (by simp [hc])
    have h2 : sep ∉ rest := fun hm => h (by simp [hm])
    simp only [jsSplit, if_neg h1, ih h2]

theorem splitSegs_nil : splitSegs [] = [] := by simp [splitSegs, jsSplit]

theorem splitSegs_append (a b : JSStr) :
    splitSegs (a ++ '/' :: b) = splitSegs a ++ splitSegs b := by
  simp [splitSegs, jsSplit_append, List.filter_append]

theorem splitSegs_cons_sep (b : JSStr) : splitSegs ('/' :: b) = splitSegs b := by
  have h := splitSegs_append [] b
  simpa [splitSegs_nil] using h

theorem splitSegs_single {s : JSStr} (h1 : s ≠ []) (h2 : '/' ∉ s) :
    splitSegs s = [s] := by
  simp [splitSegs, jsSplit_of_not_mem h2, h1]

theorem mem_splitSegs {p s : JSStr} (h : s ∈ splitSegs p) : s ≠ [] ∧ '/' ∉ s := by
  simp only [splitSegs, List.mem_filter] at h
  refine ⟨by simpa using h.2, not_sep_of_mem_jsSplit h.1⟩

theorem splitSegs_joinSegs {segs : List JSStr}
    (h : ∀ s ∈ segs, s ≠ [] ∧ '/' ∉ s) : splitSegs (joinSegs segs) = segs := by
  induction segs with
  | nil => exact splitSegs_nil
  | cons s rest ih =>
    cases rest with
    | nil => exact splitSegs_single (h s (by simp)).1 (h s (by simp)).2
    | cons t ts =>
      have hj : joinSegs (s :: t :: ts) = s ++ '/' :: joinSegs (t :: ts) := rfl
      rw [hj, splitSegs_append,
          splitSegs_single (h s (by simp)).1 (h s (by simp)).2,
          ih (fun u hu => h u (List.mem_cons_of_mem s hu))]
      rfl

theorem joinSegs_ne_nil {segs : List JSStr} (h0 : segs ≠ [])
    (h : ∀ s ∈ segs, s ≠ []) : joinSegs segs ≠ [] := by
  cases segs with
  | nil => exact absurd rfl h0
  | cons s rest =>
    have h1 := h s (by simp)
    cases rest with
    | nil => exact h1
    | cons t ts =>
      cases s with
      | nil => exact absurd rfl h1
      | cons c cs => simp [joinSegs]

theorem isAbsolute_append {a : JSStr} (b : JSStr) (h : a ≠ []) :
    isAbsolute (a ++ b) = isAbsolute a := by
  cases a with
  | nil => exact absurd rfl h
  | cons c r => rfl

theorem isAbsolute_joinSegs {segs : List JSStr}
    (h : ∀ s ∈ segs, s ≠ [] ∧ '/' ∉ s) : isAbsolute (joinSegs segs) = false := by
  cases segs with
  | nil => rfl
  | cons s rest =>
    obtain ⟨h1, h2⟩ := h s (by simp)
    cases s with
    | nil => exact absurd rfl h1
    | cons c cs =>
      have hc : ¬ c = '/' := fun hc => h2 (by simp [hc])
      cases rest with
      | nil => simp [joinSegs, isAbsolute, hc]
      | cons t ts => simp [joinSegs, isAbsolute, hc]

theorem mem_of_getLastQ {l : JSStr} {c : Char} (h : l.getLast? = some c) :
    c ∈ l := by
  induction l with
  | nil => simp at h
  | cons a rest ih =>
    cases rest with
    | nil =>
      simp only [List.getLast?_singleton, Option.some.injEq] at h
      simp [h]
    | cons b bs =>
      rw [List.getLast?_cons_cons] at h
      exact List.mem_cons_of_mem a (ih h)

/-! ## Lemmas about dot-segment resolution -/

theorem resolveDots_clean {segs : List JSStr} (b : Bool) (stack : List JSStr)
    (h : ∀ s ∈ segs, s ≠ [] ∧ s ≠ ['.'] ∧ s ≠ ['.', '.']) :
    resolveDots b stack segs = stack ++ segs := by
  induction segs generalizing stack with
  | nil => simp [resolveDots]
  | cons s rest ih =>
    obtain ⟨h1, h2, h3⟩ := h s (by simp)
    simp only [resolveDots, if_neg h1, if_neg h2, if_neg h3]
    rw [ih (stack ++ [s]) (fun t ht => h t (List.mem_cons_of_mem s ht))]
    simp

theorem mem_resolveDots {b : Bool} {s : JSStr} :
    ∀ {segs stack : List JSStr}, s ∈ resolveDots b stack segs →
      s ∈ stack ∨ s ∈ segs ∨ s = ['.', '.'] := by
  intro segs
  induction segs with
  | nil =>
    intro stack h
    simp only [resolveDots] at h
    exact Or.inl h
  | cons t rest ih =>
    intro stack h
    have step : ∀ {st : List JSStr}, s ∈ resolveDots b st rest →
        (∀ x ∈ st, x ∈ stack ∨ x = t ∨ x = ['.', '.']) →
        s ∈ stack ∨ s ∈ t :: rest ∨ s = ['.', '.'] := by
      intro st hst hsub
      rcases ih hst with h' | h' | h'
      · rcases hsub s h' with h'' | h'' | h''
        · exact Or.inl h''
        · exact Or.inr (Or.inl (h'' ▸ List.mem_cons_self t rest))
        · exact Or.inr (Or.inr h'')
      · exact Or.inr (Or.inl (List.mem_cons_of_mem t h'))
      · exact Or.inr (Or.inr h')
    simp only [resolveDots] at h
    split at h
    · exact step h (fun x hx => Or.inl hx)
    · split at h
      · exact step h (fun x hx => Or.inl hx)
      · split at h
        · split at h
          · split at h
            · split at h
              · refine step h (fun x hx => ?_)
                rcases List.mem_append.mp hx with hx | hx
                · exact Or.inl hx
                · exact Or.inr (Or.inr (List.mem_singleton.mp hx))
              · exact step h (fun x hx => Or.inl hx)
            · exact step h (fun x hx => Or.inl (List.dropLast_subset stack hx))
          · split at h
            · exact step h (fun x hx => Or.inr (Or.inr (List.mem_singleton.mp hx)))
            · exact step h (fun x hx => absurd hx (List.not_mem_nil x))
        · refine step h (fun x hx => ?_)
          rcases List.mem_append.mp hx with hx | hx
          · exact Or.inl hx
          · exact Or.inr (Or.inl (List.mem_singleton.mp hx))

theorem canonSegs_clean (p : JSStr) : ∀ s ∈ canonSegs p, s ≠ [] ∧ '/' ∉ s := by
  intro s hs
  rcases mem_resolveDots hs with h | h | h
  · simp at h
  · exact mem_splitSegs h
  · subst h
    exact ⟨by simp, by decide⟩

/-! ## Characterization of the segments used by setNestedValue -/

theorem partsOf_eq_splitSegs (p : JSStr) :
    partsOf p = splitSegs (normalizePath p) := rfl

theorem normalize_eq_cases (p : JSStr) :
    normalize p =
      (if isAbsolute p then ['/'] else []) ++
      (if canonSegs p = []
       then (if isAbsolute p then []
             else '.' :: (if p.getLast? = some '/' then ['/'] else []))
       else joinSegs (canonSegs p) ++
            (if p.getLast? = some '/' then ['/'] else [])) := by
  by_cases habs : isAbsolute p = true
  · have hcs : resolveDots false [] (splitSegs p) = canonSegs p := by
      simp [canonSegs, habs]
    by_cases hr : canonSegs p = []
    · simp [normalize, habs, hcs, hr, joinSegs]
    · have hne : joinSegs (canonSegs p) ≠ [] :=
        joinSegs_ne_nil hr (fun s hs => (canonSegs_clean p s hs).1)
      by_cases ht : p.getLast? = some '/'
      · simp [normalize, habs, hcs, hr, ht, hne]
      · simp [normalize, habs, hcs, hr, ht, hne]
  · have habs' : isAbsolute p = false := by simpa using habs
    have hcs : resolveDots true [] (splitSegs p) = canonSegs p := by
      simp [canonSegs, habs']
    by_cases hr : canonSegs p = []
    · by_cases ht : p.getLast? = some '/'
      · simp [normalize, habs', hcs, hr, ht, joinSegs]
      · simp [normalize, habs', hcs, hr, ht, joinSegs]
    · have hne : joinSegs (canonSegs p) ≠ [] :=
        joinSegs_ne_nil hr (fun s hs => (canonSegs_clean p s hs).1)
      by_cases ht : p.getLast? = some '/'
      · simp [normalize, habs', hcs, hr, ht, hne]
      · simp [normalize, habs', hcs, hr, ht, hne]

theorem splitSegs_trailing (x : JSStr) : splitSegs (x ++ ['/']) = splitSegs x := by
  have h : x ++ ['/'] = x ++ '/' :: [] := rfl
  rw [h, splitSegs_append, splitSegs_nil, List.append_nil]

theorem partsOf_eq_canonSegs {p : JSStr} (h : canonSegs p ≠ []) :
    partsOf p = canonSegs p := by
  have hclean := canonSegs_clean p
  have hne : joinSegs (canonSegs p) ≠ [] :=
    joinSegs_ne_nil h (fun s hs => (hclean s hs).1)
  have habsJ : isAbsolute (joinSegs (canonSegs p)) = false :=
    isAbsolute_joinSegs hclean
  have hJ : splitSegs (joinSegs (canonSegs p)) = canonSegs p :=
    splitSegs_joinSegs hclean
  have hA : isAbsolute (joinSegs (canonSegs p) ++ ['/']) = false := by
    rw [isAbsolute_append _ hne]
    exact habsJ
  have hsep : ∀ x : JSStr, isAbsolute ('/' :: x) = true := fun x => rfl
  rw [partsOf_eq_splitSegs, normalizePath, normalize_eq_cases p]
  by_cases habs : isAbsolute p = true <;> by_cases ht : p.getLast? = some '/' <;>
    simp [habs, ht, h, hne, habsJ, hA, hJ, hsep, splitSegs_trailing]

theorem partsOf_of_canonSegs_nil {p : JSStr} (h : canonSegs p = []) :
    partsOf p = if isAbsolute p then [] else [['.']] := by
  have hdot : splitSegs ['.'] = [['.']] := splitSegs_single (by simp) (by decide)
  have hdot2 : splitSegs ['.', '/'] = [['.']] := by
    have hE : (['.', '/'] : List Char) = ['.'] ++ ['/'] := rfl
    rw [hE, splitSegs_trailing, hdot]
  have hsep : ∀ x : JSStr, isAbsolute ('/' :: x) = true := fun x => rfl
  have hd1 : isAbsolute ['.'] = false := by decide
  have hd2 : isAbsolute ['.', '/'] = false := by decide
  rw [partsOf_eq_splitSegs, normalizePath, normalize_eq_cases p]
  by_cases habs : isAbsolute p = true <;> by_cases ht : p.getLast? = some '/' <;>
    simp [habs, ht, h, splitSegs_nil, hdot, hdot2, hsep, hd1, hd2]

/-! ## Clean paths -/

theorem cleanSeg_spec {s : JSStr} (h : cleanSeg s = true) :
    s ≠ [] ∧ '/' ∉ s ∧ s ≠ ['.'] ∧ s ≠ ['.', '.'] := by
  simp only [cleanSeg, Bool.and_eq_true, decide_eq_true_eq] at h
  exact ⟨h.1.1.1.1, h.1.1.1.2, h.1.1.2, h.1.2⟩

theorem cleanSegs_spec {l : List JSStr} (h : cleanSegs l = true) :
    ∀ s ∈ l, s ≠ [] ∧ '/' ∉ s ∧ s ≠ ['.'] ∧ s ≠ ['.', '.'] := by
  intro s hs
  rw [cleanSegs, List.all_eq_true] at h
  exact cleanSeg_spec (h s hs)

theorem cleanSegs_sf {l : List JSStr} (h : cleanSegs l = true) :
    ∀ s ∈ l, s ≠ [] ∧ '/' ∉ s :=
  fun s hs => ⟨(cleanSegs_spec h s hs).1, (cleanSegs_spec h s hs).2.1⟩

theorem canonSegs_joinSegs {segs : List JSStr} (h : cleanSegs segs = true) :
    canonSegs (joinSegs segs) = segs := by
  have hs := cleanSegs_spec h
  rw [canonSegs, isAbsolute_joinSegs (cleanSegs_sf h), splitSegs_joinSegs (cleanSegs_sf h)]
  rw [resolveDots_clean _ _ (fun s hx => ⟨(hs s hx).1, (hs s hx).2.2.1, (hs s hx).2.2.2⟩)]
  rfl

theorem canonSegs_absJoin {segs : List JSStr} (h : cleanSegs segs = true) :
    canonSegs ('/' :: joinSegs segs) = segs := by
  have hs := cleanSegs_spec h
  have habs : isAbsolute ('/' :: joinSegs segs) = true := by simp [isAbsolute]
  rw [canonSegs, habs, splitSegs_cons_sep, splitSegs_joinSegs (cleanSegs_sf h)]
  rw [resolveDots_clean _ _ (fun s hx => ⟨(hs s hx).1, (hs s hx).2.2.1, (hs s hx).2.2.2⟩)]
  rfl

theorem partsOf_joinSegs {segs : List JSStr} (h : cleanSegs segs = true)
    (h0 : segs ≠ []) : partsOf (joinSegs segs) = segs := by
  rw [partsOf_eq_canonSegs (by rw [canonSegs_joinSegs h]; exact h0),
    canonSegs_joinSegs h]

theorem partsOf_absJoin {segs : List JSStr} (h : cleanSegs segs = true)
    (h0 : segs ≠ []) : partsOf ('/' :: joinSegs segs) = segs := by
  rw [partsOf_eq_canonSegs (by rw [canonSegs_absJoin h]; exact h0),
    canonSegs_absJoin h]

theorem joinSegs_concat {segs : List JSStr} (h0 : segs ≠ []) (name : JSStr) :
    joinSegs (segs ++ [name]) = joinSegs segs ++ '/' :: name := by
  induction segs with
  | nil => exact absurd rfl h0
  | cons s rest ih =>
    cases rest with
    | nil => simp [joinSegs]
    | cons t ts =>
      have h1 : joinSegs ((s :: t :: ts) ++ [name]) =
          s ++ '/' :: joinSegs ((t :: ts) ++ [name]) := rfl
      rw [h1, ih (by simp)]
      simp [joinSegs]

theorem getLastQ_joinSegs {segs : List JSStr}
    (h : ∀ s ∈ segs, s ≠ [] ∧ '/' ∉ s) (h0 : segs ≠ []) :
    (joinSegs segs).getLast? ≠ some '/' := by
  induction segs with
  | nil => exact absurd rfl h0
  | cons s rest ih =>
    cases rest with
    | nil =>
      intro hl
      exact (h s (by simp)).2 (mem_of_getLastQ hl)
    | cons t ts =>
      have h1 : joinSegs (s :: t :: ts) = s ++ '/' :: joinSegs (t :: ts) := rfl
      have h2 : joinSegs (t :: ts) ≠ [] :=
        joinSegs_ne_nil (by simp) (fun u hu => (h u (List.mem_cons_of_mem s hu)).1)
      obtain ⟨c, hc⟩ : ∃ c, (joinSegs (t :: ts)).getLast? = some c := by
        cases hx : (joinSegs (t :: ts)).getLast? with
        | none => exact absurd (List.getLast?_eq_none_iff.mp hx) h2
        | some c => exact ⟨c, rfl⟩
      have ihc := ih (fun u hu => h u (List.mem_cons_of_mem s hu)) (by simp)
      intro hl
      rw [h1] at hl
      have h3 : ('/' :: joinSegs (t :: ts) : JSStr) = ['/'] ++ joinSegs (t :: ts) := rfl
      rw [List.getLast?_append, h3, List.getLast?_append, hc, Option.or_some,
        Option.or_some] at hl
      exact ihc (hc.trans hl)

theorem normalize_clean_rel {segs : List JSStr} (h : cleanSegs segs = true)
    (h0 : segs ≠ []) : normalize (joinSegs segs) = joinSegs segs := by
  rw [normalize_eq_cases, canonSegs_joinSegs h, isAbsolute_joinSegs (cleanSegs_sf h)]
  rw [if_neg (by simp), if_neg h0, if_neg (getLastQ_joinSegs (cleanSegs_sf h) h0)]
  simp

theorem normalize_clean_abs {segs : List JSStr} (h : cleanSegs segs = true)
    (h0 : segs ≠ []) : normalize ('/' :: joinSegs segs) = '/' :: joinSegs segs := by
  have habs : isAbsolute ('/' :: joinSegs segs) = true := by simp [isAbsolute]
  have hne : joinSegs segs ≠ [] := joinSegs_ne_nil h0 (fun u hu => (cleanSegs_sf h u hu).1)
  have ht : ('/' :: joinSegs segs).getLast? ≠ some '/' := by
    have h3 : ('/' :: joinSegs segs : JSStr) = ['/'] ++ joinSegs segs := rfl
    obtain ⟨c, hc⟩ : ∃ c, (joinSegs segs).getLast? = some c := by
      cases hx : (joinSegs segs).getLast? with
      | none => exact absurd (List.getLast?_eq_none_iff.mp hx) hne
      | some c => exact ⟨c, rfl⟩
    rw [h3, List.getLast?_append, hc, Option.or_some]
    intro hl
    exact getLastQ_joinSegs (cleanSegs_sf h) h0 (hc.trans hl)
  rw [normalize_eq_cases, canonSegs_absJoin h, habs, if_pos rfl, if_neg h0, if_neg ht]
  simp

theorem cleanSegs_concat {segs : List JSStr} {name : JSStr}
    (h : cleanSegs segs = true) (hn : cleanSeg name = true) :
    cleanSegs (segs ++ [name]) = true := by
  simp [cleanSegs, List.all_append] at h ⊢
  exact ⟨by simpa [cleanSegs] using h, hn⟩

theorem joinPaths_relJoin {segs : List JSStr} {name : JSStr}
    (h : cleanSegs segs = true) (h0 : segs ≠ []) (hn : cleanSeg name = true) :
    joinPaths (joinSegs segs) name = joinSegs (segs ++ [name]) := by
  have hne : joinSegs segs ≠ [] := joinSegs_ne_nil h0 (fun u hu => (cleanSegs_sf h u hu).1)
  have hnn : name ≠ [] := (cleanSeg_spec hn).1
  rw [joinPaths, if_neg (by intro hh; exact hne hh.1), if_neg hne, if_neg hnn]
  rw [← joinSegs_concat h0 name]
  exact normalize_clean_rel (cleanSegs_concat h hn) (by simp)

theorem joinPaths_absJoin {segs : List JSStr} {name : JSStr}
    (h : cleanSegs segs = true) (h0 : segs ≠ []) (hn : cleanSeg name = true) :
    joinPaths ('/' :: joinSegs segs) name = '/' :: joinSegs (segs ++ [name]) := by
  have hnn : name ≠ [] := (cleanSeg_spec hn).1
  rw [joinPaths, if_neg (by intro hh; exact List.cons_ne_nil _ _ hh.1),
    if_neg (List.cons_ne_nil _ _), if_neg hnn]
  have hE : ('/' :: joinSegs segs) ++ '/' :: name = '/' :: joinSegs (segs ++ [name]) := by
    rw [joinSegs_concat h0 name]
    rfl
  rw [hE]
  exact normalize_clean_abs (cleanSegs_concat h hn) (by simp)

/-! ## Lemmas about the nested map operations -/

theorem findAL_insertAL_self (es : List (JSStr × NFM)) (k : JSStr) (v : NFM) :
    findAL (insertAL es k v) k = some v := by
  induction es with
  | nil => simp [insertAL, findAL]
  | cons e rest ih =>
    obtain ⟨k', v'⟩ := e
    by_cases hk : k' = k
    · simp [insertAL, findAL, hk]
    · simp [insertAL, findAL, hk, ih]

theorem findAL_insertAL_ne (es : List (JSStr × NFM)) {k k' : JSStr} (v : NFM)
    (h : k' ≠ k) : findAL (insertAL es k v) k' = findAL es k' := by
  induction es with
  | nil => simp [insertAL, findAL, (Ne.symm h : k ≠ k')]
  | cons e rest ih =>
    obtain ⟨a, b⟩ := e
    by_cases ha : a = k
    · subst ha
      simp [insertAL, findAL, (Ne.symm h : a ≠ k')]
    · simp [insertAL, findAL, ha, ih]

theorem setNestedParts_node {es : List (JSStr × NFM)} {segs : List JSStr}
    {v : JSStr} {m' : NFM} (h : setNestedParts (.node es) segs v = .ok m') :
    ∃ es', m' = .node es' := by
  cases segs with
  | nil =>
    injection h with h
    exact ⟨_, h.symm⟩
  | cons p rest =>
    cases rest with
    | nil =>
      injection h with h
      exact ⟨_, h.symm⟩
    | cons q r =>
      simp only [setNestedParts] at h
      rcases hf : findAL es p with _ | c <;> simp only [hf] at h
      · rcases hs : setNestedParts (.node []) (q :: r) v with e | child <;> simp only [hs] at h
        · exact absurd h (by simp)
        · injection h with h
          exact ⟨_, h.symm⟩
      · rcases hs : setNestedParts c (q :: r) v with e | child <;> simp only [hs] at h
        · exact absurd h (by simp)
        · injection h with h
          exact ⟨_, h.symm⟩

theorem insertOk_fresh (segs : List JSStr) : insertOk (NFM.node []) segs = true := by
  cases segs with
  | nil => rfl
  | cons p r =>
    cases r with
    | nil => rfl
    | cons q rr => simp [insertOk, findAL]

theorem insertOk_ok {m : NFM} {segs : List JSStr} (v : JSStr)
    (h : insertOk m segs = true) : ∃ m', setNestedParts m segs v = .ok m' := by
  induction segs generalizing m with
  | nil =>
    cases m with
    | leaf w => simp [insertOk] at h
    | node es => exact ⟨_, rfl⟩
  | cons p rest ih =>
    cases m with
    | leaf w => simp [insertOk] at h
    | node es =>
      cases rest with
      | nil => exact ⟨_, rfl⟩
      | cons q r =>
        simp only [insertOk] at h
        rcases hf : findAL es p with _ | c <;> simp only [hf] at h
        · obtain ⟨m', hm⟩ := ih (m := .node []) (insertOk_fresh (q :: r))
          exact ⟨.node (insertAL es p m'), by simp only [setNestedParts, hf, hm]⟩
        · obtain ⟨m', hm⟩ := ih h
          exact ⟨.node (insertAL es p m'), by simp only [setNestedParts, hf, hm]⟩

theorem lookupPath_setNestedParts_self {segs : List JSStr} :
    ∀ {m m' : NFM} {v : JSStr}, setNestedParts m segs v = .ok m' → segs ≠ [] →
      lookupPath m' segs = some (.leaf v) := by
  induction segs with
  | nil => exact fun h h0 => absurd rfl h0
  | cons p rest ih =>
    intro m m' v h _
    cases m with
    | leaf w => exact absurd h (by simp [setNestedParts])
    | node es =>
      cases rest with
      | nil =>
        injection h with h
        subst h
        simp [lookupPath, findAL_insertAL_self]
      | cons q r =>
        simp only [setNestedParts] at h
        rcases hf : findAL es p with _ | c <;> simp only [hf] at h
        · rcases hs : setNestedParts (.node []) (q :: r) v with e | child <;> simp only [hs] at h
          · exact absurd h (by simp)
          · injection h with h
            subst h
            have hl : lookupPath (NFM.node (insertAL es p child)) (p :: q :: r) =
                lookupPath child (q :: r) := by
              simp [lookupPath, findAL_insertAL_self]
            rw [hl]
            exact ih hs (by simp)
        · rcases hs : setNestedParts c (q :: r) v with e | child <;> simp only [hs] at h
          · exact absurd h (by simp)
          · injection h with h
            subst h
            have hl : lookupPath (NFM.node (insertAL es p child)) (p :: q :: r) =
                lookupPath child (q :: r) := by
              simp [lookupPath, findAL_insertAL_self]
            rw [hl]
            exact ih hs (by simp)

theorem incomp_cons_same {p : JSStr} {rest qs : List JSStr}
    (h : incomp (p :: rest) (p :: qs)) : incomp rest qs := by
  refine ⟨?_, ?_⟩
  · have h1 := h.1
    simpa [isPre] using h1
  · have h2 := h.2
    simpa [isPre] using h2

theorem lookupPath_setNestedParts_other {segs : List JSStr} :
    ∀ {m m' : NFM} {q : List JSStr} {v : JSStr},
      setNestedParts m segs v = .ok m' → incomp segs q →
      lookupPath m' q = lookupPath m q := by
  induction segs with
  | nil => exact fun h hi => absurd hi.1 (by simp [isPre])
  | cons p rest ih =>
    intro m m' q v h hi
    cases m with
    | leaf w => exact absurd h (by simp [setNestedParts])
    | node es =>
      cases q with
      | nil => exact absurd hi.2 (by simp [isPre])
      | cons q0 qs =>
        cases rest with
        | nil =>
          by_cases hq : q0 = p
          · subst hq
            cases qs with
            | nil => exact absurd hi.2 (by simp [isPre])
            | cons q1 qq => exact absurd hi.1 (by simp [isPre])
          · injection h with h
            subst h
            simp [lookupPath, findAL_insertAL_ne es _ hq]
        | cons r0 rr =>
          simp only [setNestedParts] at h
          by_cases hq : q0 = p
          · subst hq
            cases qs with
            | nil => exact absurd hi.2 (by simp [isPre])
            | cons q1 qq =>
              have hi' : incomp (r0 :: rr) (q1 :: qq) := incomp_cons_same hi
              rcases hf : findAL es q0 with _ | c <;> simp only [hf] at h
              · rcases hs : setNestedParts (.node []) (r0 :: rr) v with e | child <;>
                  simp only [hs] at h
                · exact absurd h (by simp)
                · injection h with h
                  subst h
                  have hl : lookupPath (NFM.node (insertAL es q0 child)) (q0 :: q1 :: qq) =
                      lookupPath child (q1 :: qq) := by
                    simp [lookupPath, findAL_insertAL_self]
                  rw [hl, ih hs hi']
                  simp [lookupPath, findAL, hf]
              · rcases hs : setNestedParts c (r0 :: rr) v with e | child <;> simp only [hs] at h
                · exact absurd h (by simp)
                · injection h with h
                  subst h
                  have hl : lookupPath (NFM.node (insertAL es q0 child)) (q0 :: q1 :: qq) =
                      lookupPath child (q1 :: qq) := by
                    simp [lookupPath, findAL_insertAL_self]
                  rw [hl, ih hs hi']
                  simp [lookupPath, hf]
          · rcases hf : findAL es p with _ | c <;> simp only [hf] at h
            · rcases hs : setNestedParts (.node []) (r0 :: rr) v with e | child <;>
                simp only [hs] at h
              · exact absurd h (by simp)
              · injection h with h
                subst h
                simp [lookupPath, findAL_insertAL_ne es _ hq]
            · rcases hs : setNestedParts c (r0 :: rr) v with e | child <;> simp only [hs] at h
              · exact absurd h (by simp)
              · injection h with h
                subst h
                simp [lookupPath, findAL_insertAL_ne es _ hq]

theorem insertOk_setNestedParts_other {segs : List JSStr} :
    ∀ {m m' : NFM} {q : List JSStr} {v : JSStr},
      setNestedParts m segs v = .ok m' → incomp segs q →
      insertOk m q = true → insertOk m' q = true := by
  induction segs with
  | nil => exact fun h hi hq => absurd hi.1 (by simp [isPre])
  | cons p rest ih =>
    intro m m' q v h hi hq
    cases m with
    | leaf w => exact absurd h (by simp [setNestedParts])
    | node es =>
      cases q with
      | nil => exact absurd hi.2 (by simp [isPre])
      | cons q0 qs =>
        cases rest with
        | nil =>
          by_cases hqp : q0 = p
          · subst hqp
            cases qs with
            | nil => exact absurd hi.2 (by simp [isPre])
            | cons q1 qq => exact absurd hi.1 (by simp [isPre])
          · injection h with h
            subst h
            cases qs with
            | nil => rfl
            | cons q1 qq =>
              simp only [insertOk, findAL_insertAL_ne es _ hqp]
              simpa [insertOk] using hq
        | cons r0 rr =>
          simp only [setNestedParts] at h
          by_cases hqp : q0 = p
          · subst hqp
            cases qs with
            | nil => exact absurd hi.2 (by simp [isPre])
            | cons q1 qq =>
              have hi' : incomp (r0 :: rr) (q1 :: qq) := incomp_cons_same hi
              rcases hf : findAL es q0 with _ | c <;> simp only [hf] at h
              · rcases hs : setNestedParts (.node []) (r0 :: rr) v with e | child <;>
                  simp only [hs] at h
                · exact absurd h (by simp)
                · injection h with h
                  subst h
                  simp only [insertOk, findAL_insertAL_self]
                  exact ih hs hi' (insertOk_fresh (q1 :: qq))
              · rcases hs : setNestedParts c (r0 :: rr) v with e | child <;> simp only [hs] at h
                · exact absurd h (by simp)
                · injection h with h
                  subst h
                  simp only [insertOk, findAL_insertAL_self]
                  have hq' : insertOk c (q1 :: qq) = true := by
                    simpa [insertOk, hf] using hq
                  exact ih hs hi' hq'
          · rcases hf : findAL es p with _ | c <;> simp only [hf] at h
            · rcases hs : setNestedParts (.node []) (r0 :: rr) v with e | child <;>
                simp only [hs] at h
              · exact absurd h (by simp)
              · injection h with h
                subst h
                cases qs with
                | nil => rfl
                | cons q1 qq =>
                  simp only [insertOk, findAL_insertAL_ne es _ hqp]
                  simpa [insertOk] using hq
            · rcases hs : setNestedParts c (r0 :: rr) v with e | child <;> simp only [hs] at h
              · exact absurd h (by simp)
              · injection h with h
                subst h
                cases qs with
                | nil => rfl
                | cons q1 qq =>
                  simp only [insertOk, findAL_insertAL_ne es _ hqp]
                  simpa [insertOk] using hq

theorem rootOk_node {m : NFM} (hr : rootOk m = true) :
    ∃ es es0, m = .node es ∧ findAL es rootKey = some (.node es0) := by
  cases m with
  | leaf w => simp [rootOk] at hr
  | node es =>
    simp only [rootOk] at hr
    rcases hf : findAL es rootKey with _ | c <;> simp only [hf] at hr
    · simp at hr
    · cases c with
      | leaf w => simp at hr
      | node es0 => exact ⟨es, es0, rfl, hf⟩

theorem rootOk_setNestedParts {m m' : NFM} {segs : List JSStr} {v : JSStr}
    (h : setNestedParts m segs v = .ok m') (hr : rootOk m = true)
    (hk : segs ≠ [rootKey]) : rootOk m' = true := by
  obtain ⟨es, es0, hm, hf⟩ := rootOk_node hr
  subst hm
  cases segs with
  | nil =>
    injection h with h
    subst h
    have hne : undefKey ≠ rootKey := by decide
    simp [rootOk, findAL_insertAL_ne es _ (Ne.symm hne), hf]
  | cons p rest =>
    cases rest with
    | nil =>
      have hp : p ≠ rootKey := fun hh => hk (by rw [hh])
      injection h with h
      subst h
      simp [rootOk, findAL_insertAL_ne es _ (Ne.symm hp), hf]
    | cons q r =>
      simp only [setNestedParts] at h
      by_cases hp : p = rootKey
      · subst hp
        simp only [hf] at h
        rcases hs : setNestedParts (.node es0) (q :: r) v with e | child <;> simp only [hs] at h
        · exact absurd h (by simp)
        · injection h with h
          subst h
          obtain ⟨es1, hch⟩ := setNestedParts_node hs
          subst hch
          simp [rootOk, findAL_insertAL_self]
      · rcases hg : findAL es p with _ | c <;> simp only [hg] at h
        · rcases hs : setNestedParts (.node []) (q :: r) v with e | child <;> simp only [hs] at h
          · exact absurd h (by simp)
          · injection h with h
            subst h
            simp [rootOk, findAL_insertAL_ne es _ (Ne.symm hp), hf]
        · rcases hs : setNestedParts c (q :: r) v with e | child <;> simp only [hs] at h
          · exact absurd h (by simp)
          · injection h with h
            subst h
            simp [rootOk, findAL_insertAL_ne es _ (Ne.symm hp), hf]

/-! ## Walking into a leaf raises a TypeError -/

theorem setNestedParts_leaf_mid {q : List JSStr} :
    ∀ {m : NFM} {r : List JSStr} {v w : JSStr}, lookupPath m q = some (.leaf w) →
      q ≠ [] → r ≠ [] → setNestedParts m (q ++ r) v = .error .typeError := by
  induction q with
  | nil => exact fun _ h0 _ => absurd rfl h0
  | cons p rest ih =>
    intro m r v w hl _ hr
    cases m with
    | leaf u => rfl
    | node es =>
      simp only [lookupPath] at hl
      rcases hf : findAL es p with _ | c <;> simp only [hf] at hl
      · exact absurd hl (by simp)
      · cases rest with
        | nil =>
          simp only [lookupPath] at hl
          injection hl with hl
          subst hl
          cases r with
          | nil => exact absurd rfl hr
          | cons r0 rr => simp [setNestedParts, hf]
        | cons q1 qq =>
          have hrec := ih (m := c) (r := r) (v := v) hl (by simp) hr
          simp only [List.cons_append] at hrec ⊢
          simp only [setNestedParts, hf, hrec]

/-! ## The setNestedValue wrapper -/

theorem partsOf_sep_free (p : JSStr) : ∀ s ∈ partsOf p, s ≠ [] ∧ '/' ∉ s := by
  intro s hs
  rw [partsOf_eq_splitSegs] at hs
  exact mem_splitSegs hs

theorem partsOf_ne_singleton_root (p : JSStr) : partsOf p ≠ [rootKey] := by
  intro hh
  have hmem : rootKey ∈ partsOf p := by rw [hh]; simp
  exact (partsOf_sep_free p rootKey hmem).2 (by simp [rootKey])

theorem setNestedValue_eq_parts {m : NFM} {p v : JSStr} (hroot : rootOk m = true)
    (hne : isAbsolute p = true → partsOf p ≠ []) :
    setNestedValue m p v =
      setNestedParts m (if isAbsolute p then rootKey :: partsOf p else partsOf p) v := by
  obtain ⟨es, es0, hm, hf⟩ := rootOk_node hroot
  subst hm
  by_cases habs : isAbsolute p = true
  · rw [if_pos habs]
    rcases hps : partsOf p with _ | ⟨p0, ps⟩
    · exact absurd hps (hne habs)
    · rcases hres : setNestedParts (.node es0) (p0 :: ps) v with e | child <;>
        simp [setNestedValue, habs, hps, hf, setNestedParts, hres]
  · have habs' : isAbsolute p = false := by simpa using habs
    simp [setNestedValue, habs']

theorem rootOk_initialMap : rootOk initialMap = true := by decide

theorem insertOk_initialMap_rel {segs : List JSStr} (h : ∀ s ∈ segs, '/' ∉ s) :
    insertOk initialMap segs = true := by
  cases segs with
  | nil => rfl
  | cons p r =>
    cases r with
    | nil => rfl
    | cons q rr =>
      have hp : ¬ rootKey = p := by
        intro hh
        exact h p (by simp) (by rw [← hh]; simp [rootKey])
      simp [insertOk, initialMap, findAL, hp]

theorem insertOk_initialMap_abs (segs : List JSStr) :
    insertOk initialMap (rootKey :: segs) = true := by
  cases segs with
  | nil => rfl
  | cons s r =>
    have hf : findAL [(rootKey, NFM.node [])] rootKey = some (NFM.node []) := by
      simp [findAL]
    simp only [initialMap, insertOk, hf]
    exact insertOk_fresh (s :: r)

theorem rootOk_setNestedValue {m m' : NFM} {p v : JSStr}
    (h : setNestedValue m p v = .ok m') (hr : rootOk m = true) : rootOk m' = true := by
  obtain ⟨es, es0, hm, hf⟩ := rootOk_node hr
  subst hm
  by_cases habs : isAbsolute p = true
  · simp only [setNestedValue, habs, if_true, hf] at h
    rcases hs : setNestedParts (.node es0) (partsOf p) v with e | child <;>
      simp only [hs] at h
    · exact absurd h (by simp)
    · injection h with h
      subst h
      obtain ⟨es1, hch⟩ := setNestedParts_node hs
      subst hch
      simp [rootOk, findAL_insertAL_self]
  · have habs' : isAbsolute p = false := by simpa using habs
    simp only [setNestedValue, habs', Bool.false_eq_true, if_false] at h
    exact rootOk_setNestedParts h hr (partsOf_ne_singleton_root p)

/-! ## The root key invariant across the whole run -/

theorem sizeN_pos (n : FSNode) : 1 ≤ sizeN n := by
  cases n <;> simp [sizeN]

theorem rootOk_processDir (k : Nat) :
    (∀ {path : JSStr} {n : FSNode} {m m' : NFM}, sizeN n ≤ k →
      processDirNode path n m = .ok m' → rootOk m = true → rootOk m' = true) ∧
    (∀ {dirPath : JSStr} {es : FSEntries} {m m' : NFM}, sizeE es ≤ k →
      processDirEntries dirPath es m = .ok m' → rootOk m = true → rootOk m' = true) := by
  induction k with
  | zero =>
    constructor
    · intro path n m m' hs _ _
      exact absurd hs (by have := sizeN_pos n; omega)
    · intro dirPath es m m' hs h hr
      cases es with
      | nil =>
        simp only [processDirEntries] at h
        injection h with h
        subst h
        exact hr
      | cons e rest =>
        obtain ⟨name, n⟩ := e
        exact absurd hs (by simp only [sizeE]; omega)
  | succ k ih =>
    constructor
    · intro path n m m' hs h hr
      cases n with
      | file c => exact rootOk_setNestedValue h hr
      | dir es =>
        exact ih.2 (by simp only [sizeN] at hs; omega) h hr
    · intro dirPath es m m' hs h hr
      cases es with
      | nil =>
        simp only [processDirEntries] at h
        injection h with h
        subst h
        exact hr
      | cons e rest =>
        obtain ⟨name, n⟩ := e
        simp only [processDirEntries] at h
        rcases hp : processDirNode (joinPaths dirPath name) n m with e1 | m1 <;>
          simp only [hp] at h
        · exact absurd h (by simp)
        · have h1 : rootOk m1 = true :=
            ih.1 (by simp only [sizeE] at hs; omega) hp hr
          exact ih.2 (by simp only [sizeE] at hs; omega) h h1

theorem rootOk_buildFileMap {fs : FS} : ∀ {inputs : List JSStr} {m m' : NFM},
    buildFileMap fs inputs m = .ok m' → rootOk m = true → rootOk m' = true := by
  intro inputs
  induction inputs with
  | nil =>
    intro m m' h hr
    simp only [buildFileMap] at h
    injection h with h
    subst h
    exact hr
  | cons p rest ih =>
    intro m m' h hr
    simp only [buildFileMap] at h
    rcases hst : statFS fs p with _ | n <;> simp only [hst] at h
    · exact absurd h (by simp)
    · cases n with
      | file c =>
        rcases hsv : setNestedValue m p (b64Encode c) with e | m1 <;> simp only [hsv] at h
        · exact absurd h (by simp)
        · exact ih h (rootOk_setNestedValue hsv hr)
      | dir es =>
        rcases hpd : processDirEntries p es m with e | m1 <;> simp only [hpd] at h
        · exact absurd h (by simp)
        · exact ih h ((rootOk_processDir (sizeE es)).2 le_rfl hpd hr)

/-! ## Success analysis of embedFiles -/

theorem embedFiles_ok_mapping {fs : FS} {inputs : List JSStr} {language name : String}
    {m : NFM} (h : embedFiles fs inputs language = .ok (name, m)) :
    buildFileMap fs inputs initialMap = .ok m ∧ language = "js" ∧
      name = "embedded_files." ++ language := by
  simp only [embedFiles] at h
  rcases hb : buildFileMap fs inputs initialMap with e | m0 <;> simp only [hb] at h
  · exact absurd h (by simp)
  · by_cases hjs : language = "js"
    · rw [if_pos hjs] at h
      injection h with h
      rw [Prod.mk.injEq] at h
      have hm : m0 = m := h.2
      refine ⟨?_, hjs, h.1.symm⟩
      rw [← hm]
    · rw [if_neg hjs] at h
      by_cases hpy : language = "py"
      · rw [if_pos hpy] at h
        simp [generatePython] at h
      · rw [if_neg hpy] at h
        exact absurd h (by simp)

theorem embedFiles_js_ok {fs : FS} {inputs : List JSStr} {m' : NFM}
    (hb : buildFileMap fs inputs initialMap = .ok m') :
    embedFiles fs inputs "js" = .ok ("embedded_files.js", m') := by
  simp [embedFiles, hb, generateJS]

/-! ## Incomparability helpers -/

theorem isPre_append_same {a : List JSStr} : ∀ {u v : List JSStr},
    isPre (a ++ u) (a ++ v) = isPre u v := by
  induction a with
  | nil => intro u v; rfl
  | cons x xs ih => intro u v; simp [isPre, ih]

theorem incomp_append_diff {a : List JSStr} {x y : JSStr} {u v : List JSStr}
    (h : x ≠ y) : incomp (a ++ x :: u) (a ++ y :: v) := by
  constructor
  · rw [isPre_append_same]
    simp [isPre, h]
  · rw [isPre_append_same]
    simp [isPre, Ne.symm h]

theorem filesOfEntries_shape {es : FSEntries} : ∀ {pc : List JSStr × List Nat},
    pc ∈ filesOfEntries es → ∃ nm p', pc.1 = nm :: p' ∧ memNames nm es = true := by
  induction es with
  | nil => intro pc hpc; simp [filesOfEntries] at hpc
  | cons e rest ih =>
    obtain ⟨name, n⟩ := e
    intro pc hpc
    simp only [filesOfEntries, List.mem_append, List.mem_map] at hpc
    rcases hpc with ⟨pc0, hpc0, rfl⟩ | hpc
    · exact ⟨name, pc0.1, rfl, by simp [memNames]⟩
    · obtain ⟨nm, p', h1, h2⟩ := ih hpc
      exact ⟨nm, p', h1, by simp [memNames, h2]⟩

theorem mem_filesOfEntries_cons {name : JSStr} {n : FSNode} {rest : FSEntries}
    {pc : List JSStr × List Nat} :
    pc ∈ filesOfEntries ((name, n) :: rest) ↔
      (∃ pc0 ∈ filesOfNode n, pc = (name :: pc0.1, pc0.2)) ∨
        pc ∈ filesOfEntries rest := by
  simp only [filesOfEntries, List.mem_append, List.mem_map]
  constructor
  · rintro (⟨pc0, hpc0, rfl⟩ | h)
    · exact Or.inl ⟨pc0, hpc0, rfl⟩
    · exact Or.inr h
  · rintro (⟨pc0, hpc0, rfl⟩ | h)
    · exact Or.inl ⟨pc0, hpc0, rfl⟩
    · exact Or.inr h

/-! ## Inserting one clean file path -/

theorem setNestedValue_clean_file {o : Bool} {dsegs : List JSStr} {m : NFM}
    {v : JSStr} (hd : cleanSegs dsegs = true) (h0 : dsegs ≠ [])
    (hroot : rootOk m = true)
    (hins : insertOk m ((if o then [rootKey] else []) ++ dsegs) = true) :
    ∃ m', setNestedValue m (if o then '/' :: joinSegs dsegs else joinSegs dsegs) v =
        .ok m' ∧
      rootOk m' = true ∧
      lookupPath m' ((if o then [rootKey] else []) ++ dsegs) = some (.leaf v) ∧
      (∀ q, incomp ((if o then [rootKey] else []) ++ dsegs) q →
        lookupPath m' q = lookupPath m q ∧
          (insertOk m q = true → insertOk m' q = true)) := by
  have hfull : setNestedValue m (if o then '/' :: joinSegs dsegs else joinSegs dsegs) v =
      setNestedParts m ((if o then [rootKey] else []) ++ dsegs) v := by
    cases o with
    | false =>
      have habs : isAbsolute (joinSegs dsegs) = false :=
        isAbsolute_joinSegs (cleanSegs_sf hd)
      have he := setNestedValue_eq_parts (p := joinSegs dsegs) (v := v) hroot
        (fun hh => absurd hh (by simp [habs]))
      simpa [habs, partsOf_joinSegs hd h0] using he
    | true =>
      have habs : isAbsolute ('/' :: joinSegs dsegs) = true := rfl
      have hne : partsOf ('/' :: joinSegs dsegs) ≠ [] := by
        rw [partsOf_absJoin hd h0]
        exact h0
      have he := setNestedValue_eq_parts (p := '/' :: joinSegs dsegs) (v := v) hroot
        (fun _ => hne)
      simpa [habs, partsOf_absJoin hd h0] using he
  have hksegs : (if o then [rootKey] else []) ++ dsegs ≠ [rootKey] := by
    cases o with
    | false =>
      intro hh
      simp only [if_neg (by decide : ¬ (false = true)), List.nil_append] at hh
      have hmem : rootKey ∈ dsegs := by rw [hh]; simp
      exact (cleanSegs_sf hd rootKey hmem).2 (by simp [rootKey])
    | true =>
      intro hh
      simp only [if_pos rfl, List.singleton_append] at hh
      injection hh with h1 h2
      exact h0 h2
  have hnn : (if o then [rootKey] else []) ++ dsegs ≠ [] := by
    cases o <;> simp [h0]
  obtain ⟨m', hm⟩ := insertOk_ok v hins
  refine ⟨m', by rw [hfull]; exact hm, rootOk_setNestedParts hm hroot hksegs,
    lookupPath_setNestedParts_self hm hnn, ?_⟩
  intro q hq
  exact ⟨lookupPath_setNestedParts_other hm hq,
    fun hx => insertOk_setNestedParts_other hm hq hx⟩

/-! ## The directory walk stores every reachable file -/

theorem processDir_spec (k : Nat) :
    (∀ {o : Bool} {dsegs : List JSStr} {n : FSNode} {m : NFM},
      sizeN n ≤ k → cleanNode n = true → cleanSegs dsegs = true → dsegs ≠ [] →
      rootOk m = true →
      (∀ pc ∈ filesOfNode n,
        insertOk m ((if o then [rootKey] else []) ++ dsegs ++ pc.1) = true) →
      ∃ m', processDirNode (if o then '/' :: joinSegs dsegs else joinSegs dsegs) n m
          = .ok m' ∧
        rootOk m' = true ∧
        (∀ pc ∈ filesOfNode n,
          lookupPath m' ((if o then [rootKey] else []) ++ dsegs ++ pc.1) =
            some (.leaf (b64Encode pc.2))) ∧
        (∀ q, (∀ pc ∈ filesOfNode n,
            incomp ((if o then [rootKey] else []) ++ dsegs ++ pc.1) q) →
          lookupPath m' q = lookupPath m q ∧
            (insertOk m q = true → insertOk m' q = true))) ∧
    (∀ {o : Bool} {dsegs : List JSStr} {es : FSEntries} {m : NFM},
      sizeE es ≤ k → cleanEntries es = true → cleanSegs dsegs = true → dsegs ≠ [] →
      rootOk m = true →
      (∀ pc ∈ filesOfEntries es,
        insertOk m ((if o then [rootKey] else []) ++ dsegs ++ pc.1) = true) →
      ∃ m', processDirEntries (if o then '/' :: joinSegs dsegs else joinSegs dsegs) es m
          = .ok m' ∧
        rootOk m' = true ∧
        (∀ pc ∈ filesOfEntries es,
          lookupPath m' ((if o then [rootKey] else []) ++ dsegs ++ pc.1) =
            some (.leaf (b64Encode pc.2))) ∧
        (∀ q, (∀ pc ∈ filesOfEntries es,
            incomp ((if o then [rootKey] else []) ++ dsegs ++ pc.1) q) →
          lookupPath m' q = lookupPath m q ∧
            (insertOk m q = true → insertOk m' q = true))) := by
  induction k with
  | zero =>
    constructor
    · intro o dsegs n m hs _ _ _ _ _
      exact absurd hs (by have := sizeN_pos n; omega)
    · intro o dsegs es m hs hce hd h0 hroot hins
      cases es with
      | nil =>
        exact ⟨m, rfl, hroot, by intro pc hpc; simp [filesOfEntries] at hpc,
          fun q _ => ⟨rfl, id⟩⟩
      | cons e rest =>
        obtain ⟨name, n⟩ := e
        exact absurd hs (by simp only [sizeE]; omega)
  | succ k ih =>
    constructor
    · intro o dsegs n m hs hcn hd h0 hroot hins
      cases n with
      | file c =>
        obtain ⟨m', h1, h2, h3, h4⟩ := setNestedValue_clean_file (v := b64Encode c)
          hd h0 hroot (by simpa using hins ([], c) (by simp [filesOfNode]))
        refine ⟨m', h1, h2, ?_, ?_⟩
        · intro pc hpc
          simp only [filesOfNode, List.mem_singleton] at hpc
          subst hpc
          simpa using h3
        · intro q hq
          have hq' : incomp ((if o then [rootKey] else []) ++ dsegs) q := by
            have hh := hq ([], c) (by simp [filesOfNode])
            simpa using hh
          exact h4 q hq'
      | dir es =>
        have hs' : sizeE es ≤ k := by simp only [sizeN] at hs; omega
        exact ih.2 hs' hcn hd h0 hroot hins
    · intro o dsegs es m hs hce hd h0 hroot hins
      cases es with
      | nil =>
        exact ⟨m, rfl, hroot, by intro pc hpc; simp [filesOfEntries] at hpc,
          fun q _ => ⟨rfl, id⟩⟩
      | cons e rest =>
        obtain ⟨name, n⟩ := e
        simp only [cleanEntries, Bool.and_eq_true] at hce
        obtain ⟨⟨⟨hname, hn⟩, hmemb⟩, hrest⟩ := hce
        have hmem' : memNames name rest = false := by simpa using hmemb
        have hd' : cleanSegs (dsegs ++ [name]) = true := cleanSegs_concat hd hname
        have h0' : dsegs ++ [name] ≠ [] := by simp
        have hpath : joinPaths (if o then '/' :: joinSegs dsegs else joinSegs dsegs) name =
            (if o then '/' :: joinSegs (dsegs ++ [name])
             else joinSegs (dsegs ++ [name])) := by
          cases o with
          | false => simpa using joinPaths_relJoin hd h0 hname
          | true => simpa using joinPaths_absJoin hd h0 hname
        have hsN : sizeN n ≤ k := by simp only [sizeE] at hs; omega
        have hsR : sizeE rest ≤ k := by simp only [sizeE] at hs; omega
        have hinsN : ∀ pc ∈ filesOfNode n,
            insertOk m ((if o then [rootKey] else []) ++ (dsegs ++ [name]) ++ pc.1)
              = true := by
          intro pc hpc
          have hh := hins (name :: pc.1, pc.2)
            (mem_filesOfEntries_cons.mpr (Or.inl ⟨pc, hpc, rfl⟩))
          simpa [List.append_assoc] using hh
        obtain ⟨m1, hp1, hr1, hst1, hpres1⟩ := ih.1 hsN hn hd' h0' hroot hinsN
        have hinsR : ∀ pc ∈ filesOfEntries rest,
            insertOk m1 ((if o then [rootKey] else []) ++ dsegs ++ pc.1) = true := by
          intro pc hpc
          obtain ⟨nm, p', hshape, hnm⟩ := filesOfEntries_shape hpc
          have hne2 : name ≠ nm := by
            intro hh
            rw [← hh] at hnm
            rw [hmem'] at hnm
            cases hnm
          have hic : ∀ pc0 ∈ filesOfNode n,
              incomp ((if o then [rootKey] else []) ++ (dsegs ++ [name]) ++ pc0.1)
                ((if o then [rootKey] else []) ++ dsegs ++ pc.1) := by
            intro pc0 _
            have hi := incomp_append_diff
              (a := (if o then [rootKey] else []) ++ dsegs) (u := pc0.1) (v := p') hne2
            rw [← hshape] at hi
            simpa [List.append_assoc] using hi
          exact (hpres1 _ hic).2
            (hins pc (mem_filesOfEntries_cons.mpr (Or.inr hpc)))
        obtain ⟨m2, hp2, hr2, hst2, hpres2⟩ := ih.2 hsR hrest hd h0 hr1 hinsR
        refine ⟨m2, ?_, hr2, ?_, ?_⟩
        · simp only [processDirEntries, hpath, hp1, hp2]
        · intro pc hpc
          rcases mem_filesOfEntries_cons.mp hpc with ⟨pc0, hpc0, rfl⟩ | hpc2
          · have hq2 : ∀ pc' ∈ filesOfEntries rest,
                incomp ((if o then [rootKey] else []) ++ dsegs ++ pc'.1)
                  ((if o then [rootKey] else []) ++ dsegs ++ (name :: pc0.1)) := by
              intro pc' hpc'
              obtain ⟨nm, p', hshape, hnm⟩ := filesOfEntries_shape hpc'
              have hne2 : nm ≠ name := by
                intro hh
                rw [hh] at hnm
                rw [hmem'] at hnm
                cases hnm
              have hi := incomp_append_diff
                (a := (if o then [rootKey] else []) ++ dsegs) (u := p') (v := pc0.1) hne2
              rw [← hshape] at hi
              simpa [List.append_assoc] using hi
            have hl1 : lookupPath m1
                ((if o then [rootKey] else []) ++ dsegs ++ (name :: pc0.1)) =
                some (.leaf (b64Encode pc0.2)) := by
              have hh := hst1 pc0 hpc0
              simpa [List.append_assoc] using hh
            show lookupPath m2 ((if o then [rootKey] else []) ++ dsegs ++ (name :: pc0.1)) =
              some (.leaf (b64Encode pc0.2))
            rw [(hpres2 _ hq2).1]
            exact hl1
          · exact hst2 pc hpc2
        · intro q hq
          have hqN : ∀ pc0 ∈ filesOfNode n,
              incomp ((if o then [rootKey] else []) ++ (dsegs ++ [name]) ++ pc0.1) q := by
            intro pc0 hpc0
            have hh := hq (name :: pc0.1, pc0.2)
              (mem_filesOfEntries_cons.mpr (Or.inl ⟨pc0, hpc0, rfl⟩))
            simpa [List.append_assoc] using hh
          have hqR : ∀ pc ∈ filesOfEntries rest,
              incomp ((if o then [rootKey] else []) ++ dsegs ++ pc.1) q :=
            fun pc hpc => hq pc (mem_filesOfEntries_cons.mpr (Or.inr hpc))
          obtain ⟨e1, e2⟩ := hpres1 q hqN
          obtain ⟨f1, f2⟩ := hpres2 q hqR
          exact ⟨f1.trans e1, fun hx => f2 (e2 hx)⟩

/-! ## Base64 and accessor round trips -/

theorem b64DecChar_b64EncChar : ∀ s : Nat, s < 64 → b64DecChar (b64EncChar s) = s := by
  decide

theorem b64EncChar_ne_pad : ∀ s : Nat, s < 64 → b64EncChar s ≠ '=' := by
  decide

theorem b64_roundtrip : ∀ (bs : List Nat), (∀ b ∈ bs, b < 256) →
    b64DecodeBytes (b64Encode bs) = bs := by
  intro bs
  induction bs using b64Encode.induct with
  | case1 => intro _; rfl
  | case2 b1 =>
    intro h
    have hb1 : b1 < 256 := h b1 (by simp)
    have e1 := b64DecChar_b64EncChar (b1 / 4) (by omega)
    have e2 := b64DecChar_b64EncChar (b1 % 4 * 16) (by omega)
    simp only [b64Encode, b64DecodeBytes, eq_self_iff_true, if_true, e1, e2]
    have hx : b1 / 4 * 4 + b1 % 4 * 16 / 16 = b1 := by omega
    rw [hx]
  | case3 b1 b2 =>
    intro h
    have hb1 : b1 < 256 := h b1 (by simp)
    have hb2 : b2 < 256 := h b2 (by simp)
    have e1 := b64DecChar_b64EncChar (b1 / 4) (by omega)
    have e2 := b64DecChar_b64EncChar (b1 % 4 * 16 + b2 / 16) (by omega)
    have e3 := b64DecChar_b64EncChar (b2 % 16 * 4) (by omega)
    have hne3 := b64EncChar_ne_pad (b2 % 16 * 4) (by omega)
    simp only [b64Encode, b64DecodeBytes, if_neg hne3, eq_self_iff_true, if_true, e1, e2, e3]
    have hx1 : b1 / 4 * 4 + (b1 % 4 * 16 + b2 / 16) / 16 = b1 := by omega
    have hx2 : (b1 % 4 * 16 + b2 / 16) % 16 * 16 + b2 % 16 * 4 / 4 = b2 := by omega
    rw [hx1, hx2]
  | case4 b1 b2 b3 rest ih =>
    intro h
    have hb1 : b1 < 256 := h b1 (by simp)
    have hb2 : b2 < 256 := h b2 (by simp)
    have hb3 : b3 < 256 := h b3 (by simp)
    have e1 := b64DecChar_b64EncChar (b1 / 4) (by omega)
    have e2 := b64DecChar_b64EncChar (b1 % 4 * 16 + b2 / 16) (by omega)
    have e3 := b64DecChar_b64EncChar (b2 % 16 * 4 + b3 / 64) (by omega)
    have e4 := b64DecChar_b64EncChar (b3 % 64) (by omega)
    have hne3 := b64EncChar_ne_pad (b2 % 16 * 4 + b3 / 64) (by omega)
    have hne4 := b64EncChar_ne_pad (b3 % 64) (by omega)
    have hrest := ih (fun b hb => h b (by simp [hb]))
    simp only [b64Encode, b64DecodeBytes, if_neg hne3, if_neg hne4, e1, e2, e3, e4, hrest]
    have hx1 : b1 / 4 * 4 + (b1 % 4 * 16 + b2 / 16) / 16 = b1 := by omega
    have hx2 : (b1 % 4 * 16 + b2 / 16) % 16 * 16 + (b2 % 16 * 4 + b3 / 64) / 4 = b2 := by
      omega
    have hx3 : (b2 % 16 * 4 + b3 / 64) % 4 * 64 + b3 % 64 = b3 := by omega
    rw [hx1, hx2, hx3]

theorem toNat_ofNat_byte {b : Nat} (hb : b < 256) : (Char.ofNat b).toNat = b := by
  have hv : b.isValidChar := Or.inl (by omega)
  simp [Char.ofNat, hv, Char.toNat, Char.ofNatAux, UInt32.toNat, BitVec.toNat_ofNatLt]

theorem map_ofNat_toNat {bs : List Nat} (h : ∀ b ∈ bs, b < 256) :
    (bs.map Char.ofNat).map Char.toNat = bs := by
  induction bs with
  | nil => rfl
  | cons b rest ih =>
    rw [List.map_cons, List.map_cons, toNat_ofNat_byte (h b (by simp)),
      ih (fun x hx => h x (List.mem_cons_of_mem b hx))]

theorem map_toNat_ofNat (S : JSStr) : (S.map Char.toNat).map Char.ofNat = S := by
  induction S with
  | nil => rfl
  | cons c rest ih => rw [List.map_cons, List.map_cons, Char.ofNat_toNat, ih]

theorem jsGet_b64Encode {bs : List Nat} (h : ∀ b ∈ bs, b < 256) :
    jsGet (b64Encode bs) = bs := by
  rw [jsGet, atob, b64_roundtrip bs h, map_ofNat_toNat h]

theorem utf8_ascii {S : JSStr} (h : ∀ c ∈ S, c.toNat < 128) :
    utf8EncodeStr S = S.map Char.toNat := by
  induction S with
  | nil => rfl
  | cons c rest ih =>
    have hc : c.toNat < 128 := h c (by simp)
    have ih' := ih (fun x hx => h x (List.mem_cons_of_mem c hx))
    simp only [utf8EncodeStr, List.map_cons, List.flatten_cons] at ih' ⊢
    rw [ih', utf8EncodeChar, if_pos hc]
    rfl

theorem jsGetString_b64_ascii {S : JSStr} (h : ∀ c ∈ S, c.toNat < 128) :
    jsGetString (b64Encode (utf8EncodeStr S)) = S := by
  rw [utf8_ascii h, jsGetString, atob]
  have hlt : ∀ b ∈ S.map Char.toNat, b < 256 := by
    intro b hb
    simp only [List.mem_map] at hb
    obtain ⟨c, hc, rfl⟩ := hb
    have := h c hc
    omega
  rw [b64_roundtrip _ hlt, map_toNat_ofNat]

/-! ## Bridges from single inputs to embedFiles -/

theorem buildFileMap_single_file_rel {fs : FS} {dsegs : List JSStr} {c : List Nat}
    (hd : cleanSegs dsegs = true) (h0 : dsegs ≠ [])
    (hstat : statFS fs (joinSegs dsegs) = some (.file c)) :
    ∃ M, buildFileMap fs [joinSegs dsegs] initialMap = .ok M ∧
      lookupPath M dsegs = some (.leaf (b64Encode c)) := by
  have hins : insertOk initialMap dsegs = true :=
    insertOk_initialMap_rel (fun s hs => (cleanSegs_sf hd s hs).2)
  obtain ⟨M, h1, _, h3, _⟩ := setNestedValue_clean_file (o := false) (v := b64Encode c)
    hd h0 rootOk_initialMap (by simpa using hins)
  have h1' : setNestedValue initialMap (joinSegs dsegs) (b64Encode c) = .ok M := by
    simpa using h1
  refine ⟨M, ?_, by simpa using h3⟩
  simp only [buildFileMap, hstat, h1']

theorem buildFileMap_single_file_abs {fs : FS} {dsegs : List JSStr} {c : List Nat}
    (hd : cleanSegs dsegs = true) (h0 : dsegs ≠ [])
    (hstat : statFS fs ('/' :: joinSegs dsegs) = some (.file c)) :
    ∃ M, buildFileMap fs ['/' :: joinSegs dsegs] initialMap = .ok M ∧
      lookupPath M (rootKey :: dsegs) = some (.leaf (b64Encode c)) := by
  have hins : insertOk initialMap (rootKey :: dsegs) = true := insertOk_initialMap_abs dsegs
  obtain ⟨M, h1, _, h3, _⟩ := setNestedValue_clean_file (o := true) (v := b64Encode c)
    hd h0 rootOk_initialMap (by simpa using hins)
  have h1' : setNestedValue initialMap ('/' :: joinSegs dsegs) (b64Encode c) = .ok M := by
    simpa using h1
  refine ⟨M, ?_, by simpa using h3⟩
  simp only [buildFileMap, hstat, h1']

theorem filesOf_clean (k : Nat) :
    (∀ {n : FSNode} {pc : List JSStr × List Nat}, sizeN n ≤ k → cleanNode n = true →
      pc ∈ filesOfNode n → ∀ s ∈ pc.1, cleanSeg s = true) ∧
    (∀ {es : FSEntries} {pc : List JSStr × List Nat}, sizeE es ≤ k →
      cleanEntries es = true → pc ∈ filesOfEntries es → ∀ s ∈ pc.1, cleanSeg s = true) := by
  induction k with
  | zero =>
    constructor
    · intro n pc hs _ _
      exact absurd hs (by have := sizeN_pos n; omega)
    · intro es pc hs _ hpc
      cases es with
      | nil => simp [filesOfEntries] at hpc
      | cons e rest =>
        obtain ⟨name, n⟩ := e
        exact absurd hs (by simp only [sizeE]; omega)
  | succ k ih =>
    constructor
    · intro n pc hs hcn hpc
      cases n with
      | file c =>
        simp only [filesOfNode, List.mem_singleton] at hpc
        subst hpc
        intro s hs2
        simp at hs2
      | dir es =>
        exact ih.2 (by simp only [sizeN] at hs; omega) hcn hpc
    · intro es pc hs hce hpc
      cases es with
      | nil => simp [filesOfEntries] at hpc
      | cons e rest =>
        obtain ⟨name, n⟩ := e
        simp only [cleanEntries, Bool.and_eq_true] at hce
        obtain ⟨⟨⟨hname, hn⟩, _⟩, hrest⟩ := hce
        rcases mem_filesOfEntries_cons.mp hpc with ⟨pc0, hpc0, rfl⟩ | hpc2
        · intro s hs2
          rcases List.mem_cons.mp hs2 with rfl | hs3
          · exact hname
          · exact ih.1 (by simp only [sizeE] at hs; omega) hn hpc0 s hs3
        · exact ih.2 (by simp only [sizeE] at hs; omega) hrest hpc2

theorem buildFileMap_single_dir_rel {fs : FS} {dsegs : List JSStr} {es : FSEntries}
    (hd : cleanSegs dsegs = true) (h0 : dsegs ≠ [])
    (hstat : statFS fs (joinSegs dsegs) = some (.dir es))
    (hce : cleanEntries es = true) :
    ∃ M, buildFileMap fs [joinSegs dsegs] initialMap = .ok M ∧
      ∀ pc ∈ filesOfEntries es,
        lookupPath M (dsegs ++ pc.1) = some (.leaf (b64Encode pc.2)) := by
  have hins : ∀ pc ∈ filesOfEntries es,
      insertOk initialMap ((if false then [rootKey] else []) ++ dsegs ++ pc.1) = true := by
    intro pc hpc
    have hclean : ∀ s ∈ dsegs ++ pc.1, '/' ∉ s := by
      intro s hs2
      rcases List.mem_append.mp hs2 with hs3 | hs3
      · exact (cleanSegs_sf hd s hs3).2
      · exact (cleanSeg_spec ((filesOf_clean (sizeE es)).2 le_rfl hce hpc s hs3)).2.1
    simpa using insertOk_initialMap_rel hclean
  obtain ⟨M, h1, _, h3, _⟩ := (processDir_spec (sizeE es)).2 (o := false)
    le_rfl hce hd h0 rootOk_initialMap hins
  have h1' : processDirEntries (joinSegs dsegs) es initialMap = .ok M := by
    simpa using h1
  refine ⟨M, ?_, ?_⟩
  · simp only [buildFileMap, hstat, h1']
  · intro pc hpc
    have hh := h3 pc hpc
    simpa using hh

/-! ## Claim theorems -/

/-- Claim C1, as amended: for every clean relative input file with byte
contents `B`, the leaf stored in the mapping is the base64 encoding of `B`
and the generated accessor `get` (base64-decode to a byte sequence)
applied to that leaf returns exactly `B`; `getString` returns the original
text `S` when `S` is ASCII-only.  (As stated, the claim fails for
non-ASCII UTF-8 text: `getString` is `atob`, which decodes each byte to
one character — see the counterexample.) -/
theorem c1_roundtrip_amended {fs : FS} {dsegs : List JSStr} {c : List Nat}
    (hd : cleanSegs dsegs = true) (h0 : dsegs ≠ [])
    (hbytes : ∀ b ∈ c, b < 256)
    (hstat : statFS fs (joinSegs dsegs) = some (.file c)) :
    ∃ M, embedFiles fs [joinSegs dsegs] "js" = .ok ("embedded_files.js", M) ∧
      lookupPath M dsegs = some (.leaf (b64Encode c)) ∧
      jsGet (b64Encode c) = c ∧
      (∀ S : JSStr, c = utf8EncodeStr S → (∀ ch ∈ S, ch.toNat < 128) →
        jsGetString (b64Encode c) = S) := by
  obtain ⟨M, h1, h2⟩ := buildFileMap_single_file_rel hd h0 hstat
  refine ⟨M, embedFiles_js_ok h1, h2, jsGet_b64Encode hbytes, ?_⟩
  intro S hS hA
  rw [hS]
  exact jsGetString_b64_ascii hA

/-- Witness for C1 at a concrete input: the file `a` with the single byte
104 (`"h"`). -/
theorem c1_roundtrip_witness :
    ∃ M, embedFiles fsHello [joinSegs [['a']]] "js" = .ok ("embedded_files.js", M) ∧
      lookupPath M [['a']] = some (.leaf (b64Encode [104])) ∧
      jsGet (b64Encode [104]) = [104] ∧
      (∀ S : JSStr, [104] = utf8EncodeStr S → (∀ ch ∈ S, ch.toNat < 128) →
        jsGetString (b64Encode [104]) = S) :=
  c1_roundtrip_amended (by decide) (by decide) (by decide) rfl

/-- Counterexample to C1 as stated: the UTF-8 file `f.txt` holding the
one-character text `é` (bytes 195, 169) is embedded as the leaf `w6k=`,
and the generated `getString` (`atob`) returns the two-character Latin-1
string `Ã©`, not the original text `é`. -/
theorem c1_getString_counterexample :
    embedFiles fsAccent ["f.txt".toList] "js" =
      .ok ("embedded_files.js",
        .node [(rootKey, .node []), ("f.txt".toList, .leaf "w6k=".toList)]) ∧
    fsAccent.cwd = [("f.txt".toList, .file (utf8EncodeStr ['é']))] ∧
    jsGetString "w6k=".toList ≠ ['é'] ∧
    jsGetString "w6k=".toList = ['Ã', '©'] :=
  ⟨rfl, rfl, by decide, by decide⟩

/-- Claim C2, as amended: if during the tree-builder walk a non-final
prefix of the path segments already maps to a leaf, the build fails with
the strict-mode TypeError (the property access on a string value) and
nothing is written; but there is no dedicated PathConflict check: two
inputs resolving to the same full segment sequence are not an error — the
second silently overwrites the first and the build succeeds, as the
second conjunct shows on duplicated inputs. -/
theorem c2_conflict_amended {m : NFM} {p v w : JSStr} {q r : List JSStr}
    (habs : isAbsolute p = false) (hparts : partsOf p = q ++ r)
    (hq : q ≠ []) (hr : r ≠ [])
    (hleaf : lookupPath m q = some (.leaf w)) :
    setNestedValue m p v = .error .typeError ∧
    embedFiles fsHello [['a'], ['a']] "js" =
      .ok ("embedded_files.js",
        .node [(rootKey, .node []), (['a'], .leaf (b64Encode [104]))]) := by
  constructor
  · simp only [setNestedValue, habs, Bool.false_eq_true, if_false, hparts]
    exact setNestedParts_leaf_mid hleaf hq hr
  · rfl

/-- Witness for C2 at a concrete input: inserting `a/b` into a map where
`a` is already a leaf raises the TypeError. -/
theorem c2_conflict_witness :
    setNestedValue (.node [(['a'], .leaf ['x'])]) ('a' :: '/' :: 'b' :: []) ['y'] =
      .error .typeError ∧
    embedFiles fsHello [['a'], ['a']] "js" =
      .ok ("embedded_files.js",
        .node [(rootKey, .node []), (['a'], .leaf (b64Encode [104]))]) :=
  c2_conflict_amended (q := [['a']]) (r := [['b']]) (by decide) (by decide)
    (by decide) (by decide) rfl

/-- Counterexample to C2 as stated: two inputs resolving to the same full
segment sequence (the same file given twice) do not fail the build; the
run succeeds and writes the output, the second write having silently
overwritten the first. -/
theorem c2_overwrite_counterexample :
    embedFiles fsHello [['a'], ['a']] "js" =
      .ok ("embedded_files.js",
        .node [(rootKey, .node []), (['a'], .leaf "aA==".toList)]) := rfl

/-- Claim C3: for every language string outside the supported set of the
`switch` (in particular `"rb"`), `embedFiles` never returns a written
output file, and whenever the input-reading phase succeeds the failure is
exactly the UnsupportedLanguage error. -/
theorem c3_unsupported_language {fs : FS} {inputs : List JSStr} {language : String}
    (h1 : language ≠ "js") (h2 : language ≠ "py") :
    (∀ out : String × NFM, embedFiles fs inputs language ≠ .ok out) ∧
    (∀ m, buildFileMap fs inputs initialMap = .ok m →
      embedFiles fs inputs language = .error (.unsupportedLanguage language)) := by
  constructor
  · intro out hok
    obtain ⟨name, m⟩ := out
    obtain ⟨_, hjs, _⟩ := embedFiles_ok_mapping hok
    exact h1 hjs
  · intro m hb
    simp [embedFiles, hb, h1, h2]

/-- Witness for C3 at the concrete language `"rb"`. -/
theorem c3_unsupported_language_witness :
    ((∀ out : String × NFM, embedFiles fsHello [['a']] "rb" ≠ .ok out) ∧
      (∀ m, buildFileMap fsHello [['a']] initialMap = .ok m →
        embedFiles fsHello [['a']] "rb" = .error (.unsupportedLanguage "rb"))) ∧
    embedFiles fsHello [['a']] "rb" = .error (.unsupportedLanguage "rb") := by
  have h := @c3_unsupported_language fsHello [['a']] "rb" (by decide) (by decide)
  exact ⟨h, h.2 _ rfl⟩

/-- Claim C4: embedding the absolute path `/a/b/c` (and generally any
clean absolute path) places its base64 leaf under the reserved root key
`"/"`, reachable as `files["/"]["a"]["b"]["c"]`, while a relative path is
rooted at the top level of the mapping. -/
theorem c4_absolute_rooting {fs : FS} {dsegs : List JSStr} {c : List Nat}
    (hd : cleanSegs dsegs = true) (h0 : dsegs ≠ []) :
    (statFS fs ('/' :: joinSegs dsegs) = some (.file c) →
      ∃ M, embedFiles fs ['/' :: joinSegs dsegs] "js" =
          .ok ("embedded_files.js", M) ∧
        lookupPath M (rootKey :: dsegs) = some (.leaf (b64Encode c))) ∧
    (statFS fs (joinSegs dsegs) = some (.file c) →
      ∃ M, embedFiles fs [joinSegs dsegs] "js" = .ok ("embedded_files.js", M) ∧
        lookupPath M dsegs = some (.leaf (b64Encode c))) := by
  constructor
  · intro hstat
    obtain ⟨M, h1, h2⟩ := buildFileMap_single_file_abs hd h0 hstat
    exact ⟨M, embedFiles_js_ok h1, h2⟩
  · intro hstat
    obtain ⟨M, h1, h2⟩ := buildFileMap_single_file_rel hd h0 hstat
    exact ⟨M, embedFiles_js_ok h1, h2⟩

/-- Witness for C4 on the filesystem holding `/a/b/c`: the absolute part
is discharged at `/a/b/c` and the relative part at the file `d`. -/
theorem c4_absolute_rooting_witness :
    (∃ M, embedFiles fsAbs ['/' :: joinSegs [['a'], ['b'], ['c']]] "js" =
        .ok ("embedded_files.js", M) ∧
      lookupPath M (rootKey :: [['a'], ['b'], ['c']]) =
        some (.leaf (b64Encode [1, 2]))) ∧
    (∃ M, embedFiles fsAbs [joinSegs [['d']]] "js" = .ok ("embedded_files.js", M) ∧
      lookupPath M [['d']] = some (.leaf (b64Encode [3]))) :=
  ⟨(@c4_absolute_rooting fsAbs [['a'], ['b'], ['c']] [1, 2] (by decide) (by decide)).1 rfl,
   (@c4_absolute_rooting fsAbs [['d']] [3] (by decide) (by decide)).2 rfl⟩

/-- Claim C5, as amended: calling `embedFiles` with an empty list of
inputs and the language `"js"` succeeds and produces a generated file
whose embedded mapping contains no file entries; the mapping is not
empty, however: it is exactly `{"/": {}}`, carrying the reserved root key
bound to an empty sub-mapping (see the counterexample). -/
theorem c5_empty_inputs_amended (fs : FS) :
    embedFiles fs [] "js" =
      .ok ("embedded_files.js", .node [(rootKey, .node [])]) := by
  have hb : buildFileMap fs [] initialMap = .ok initialMap := rfl
  exact embedFiles_js_ok hb

/-- Counterexample to C5 as stated: with zero inputs the run succeeds,
but the embedded mapping is `{"/": {}}`, which is not the empty mapping. -/
theorem c5_empty_mapping_counterexample :
    embedFiles fsHello [] "js" =
      .ok ("embedded_files.js", .node [(rootKey, .node [])]) ∧
    (NFM.node [(rootKey, .node [])] ≠ .node []) :=
  ⟨rfl, by simp⟩

/-- Claim C6: for the recognized language `"py"`, whose generator is the
stub raising `Error("TODO")`, `embedFiles` never returns a written output
file; whenever the input-reading phase succeeds, the failure is exactly
that explicit not-implemented error. -/
theorem c6_python_not_implemented {fs : FS} {inputs : List JSStr} :
    (∀ out : String × NFM, embedFiles fs inputs "py" ≠ .ok out) ∧
    (∀ m, buildFileMap fs inputs initialMap = .ok m →
      embedFiles fs inputs "py" = .error .todo) := by
  constructor
  · intro out hok
    obtain ⟨name, m⟩ := out
    obtain ⟨_, hjs, _⟩ := embedFiles_ok_mapping hok
    exact absurd hjs (by decide)
  · intro m hb
    simp [embedFiles, hb, generatePython]

/-- Witness for C6 at concrete inputs. -/
theorem c6_python_not_implemented_witness :
    ((∀ out : String × NFM, embedFiles fsHello [['a']] "py" ≠ .ok out) ∧
      (∀ m, buildFileMap fsHello [['a']] initialMap = .ok m →
        embedFiles fsHello [['a']] "py" = .error .todo)) ∧
    embedFiles fsHello [['a']] "py" = .error .todo := by
  have h := @c6_python_not_implemented fsHello [['a']]
  exact ⟨h, h.2 _ rfl⟩

/-- Claim C7: for a clean relative input directory, every regular file
reachable recursively from it has a leaf in the mapping at the nested key
path formed by its path segments, and that leaf decodes (via the
generated `get`) to the file's bytes. -/
theorem c7_directory_preservation {fs : FS} {dsegs : List JSStr} {es : FSEntries}
    (hd : cleanSegs dsegs = true) (h0 : dsegs ≠ [])
    (hstat : statFS fs (joinSegs dsegs) = some (.dir es))
    (hce : cleanEntries es = true)
    (hbytes : ∀ pc ∈ filesOfEntries es, ∀ b ∈ pc.2, b < 256) :
    ∃ M, embedFiles fs [joinSegs dsegs] "js" = .ok ("embedded_files.js", M) ∧
      ∀ pc ∈ filesOfEntries es,
        lookupPath M (dsegs ++ pc.1) = some (.leaf (b64Encode pc.2)) ∧
        jsGet (b64Encode pc.2) = pc.2 := by
  obtain ⟨M, h1, h2⟩ := buildFileMap_single_dir_rel hd h0 hstat hce
  refine ⟨M, embedFiles_js_ok h1, ?_⟩
  intro pc hpc
  exact ⟨h2 pc hpc, jsGet_b64Encode (hbytes pc hpc)⟩

/-- Witness for C7 on the directory `assets` containing `assets/sub/file1`
with bytes 104, 105 (`"hi"`). -/
theorem c7_directory_preservation_witness :
    ∃ M, embedFiles fsAssets [joinSegs ["assets".toList]] "js" =
        .ok ("embedded_files.js", M) ∧
      ∀ pc ∈ filesOfEntries
          [("sub".toList, FSNode.dir [("file1".toList, FSNode.file [104, 105])])],
        lookupPath M ("assets".toList :: pc.1) = some (.leaf (b64Encode pc.2)) ∧
        jsGet (b64Encode pc.2) = pc.2 :=
  c7_directory_preservation (by decide) (by decide) rfl (by decide) (by decide)

/-- Claim C8: the path segments used as nested keys are computed by
canonicalizing the path (resolving dot segments), splitting on the
separator, discarding empty segments, and stripping the leading root
marker of an absolute path.  The theorem equates the segments the code
computes (normalize, then split and filter) with the direct segment-level
resolution `canonSegs`, covering also the edge case where every segment
resolves away and the canonical form of a relative path is the single
segment `.`. -/
theorem c8_path_normalization (p : JSStr) (hp : p ≠ []) :
    (canonSegs p ≠ [] → partsOf p = canonSegs p) ∧
    (canonSegs p = [] → partsOf p = if isAbsolute p then [] else [['.']]) ∧
    (∀ s ∈ partsOf p, s ≠ [] ∧ '/' ∉ s) := by
  refine ⟨fun h => partsOf_eq_canonSegs h, fun h => partsOf_of_canonSegs_nil h,
    partsOf_sep_free p⟩

/-- Witness for C8 at the concrete path `a/..//b//c/`: the canonical
segments are `b`, `c`. -/
theorem c8_path_normalization_witness :
    partsOf ('a' :: '/' :: '.' :: '.' :: '/' :: '/' :: 'b' :: '/' :: '/' :: 'c' :: '/' :: [])
      = [['b'], ['c']] := by
  have h := c8_path_normalization
    ('a' :: '/' :: '.' :: '.' :: '/' :: '/' :: 'b' :: '/' :: '/' :: 'c' :: '/' :: [])
    (by decide)
  rw [h.1 (by decide)]
  decide

/-- Claim C9 (implicit invariant): the top-level mapping starts as
`{"/": {}}` (so the root-key invariant holds before any input is
processed), and every successful run of `embedFiles` — whatever the
inputs, even all-relative or none — produces a mapping whose top level
binds the reserved key `"/"` to a sub-mapping. -/
theorem c9_root_key_invariant :
    rootOk initialMap = true ∧
    ∀ (fs : FS) (inputs : List JSStr) (language name : String) (m : NFM),
      embedFiles fs inputs language = .ok (name, m) → rootOk m = true := by
  refine ⟨rootOk_initialMap, ?_⟩
  intro fs inputs language name m h
  obtain ⟨hb, _, _⟩ := embedFiles_ok_mapping h
  exact rootOk_buildFileMap hb rootOk_initialMap

/-- Witness for C9: a run with no inputs (all-relative vacuously) carries
the root key. -/
theorem c9_root_key_invariant_witness :
    embedFiles fsHello [] "js" = .ok ("embedded_files.js", initialMap) ∧
    rootOk initialMap = true :=
  ⟨rfl, c9_root_key_invariant.2 fsHello [] "js" "embedded_files.js" initialMap rfl⟩

/-- Claim C10 (implicit): the CLI argument validator accepts exactly the
language values `js`, `ts` and `py`, yet for the accepted value `ts` the
`switch` in `embedFiles` has no case, so `embedFiles` can never return a
written output file for `ts`: there is a CLI-accepted language for which
no output is ever produced. -/
theorem c10_cli_language_mismatch :
    "ts" ∈ cliSupportedLanguages ∧
    ∀ (fs : FS) (inputs : List JSStr) (out : String × NFM),
      embedFiles fs inputs "ts" ≠ .ok out := by
  constructor
  · simp [cliSupportedLanguages]
  · intro fs inputs out hok
    obtain ⟨name, m⟩ := out
    obtain ⟨_, hjs, _⟩ := embedFiles_ok_mapping hok
    exact absurd hjs (by decide)

end Embed
